import Mathlib

/-!
Verification of the `dfaregex` regular-expression engine
(`libs/dfaregex.py`): a parser from pattern strings to syntax trees,
a tree simplifier, a compiler from trees to NFAs, a subset-construction
DFA builder, and a whole-string matcher.

The embedding below mirrors the Python source.  Python strings are
modelled as `List Char`; literal symbol values (which in the source are
either one-character strings or the sentinel strings `'START'`/`'END'`)
are modelled as `List Char` as well.  Python dict-of-dict-of-frozenset
NFA graphs are modelled as edge lists `List (Nat × Sym × Nat)`: an entry
`graph[s][a] ⊇ {d}` corresponds to the edge `(s, a, d)`; the source never
stores an empty destination set, so the two representations carry the
same information.  Iteration over `frozenset`s of integer state ids is
modelled in ascending order.  Loops whose termination is not structural
are given explicit fuel together with lemmas showing the fuel suffices.
-/

namespace DfaRegex

/-- A literal symbol: in the source a Python string, either a single
character or one of the sentinels `'START'` / `'END'`. -/
abbrev Sym := List Char

/-- The `'START'` sentinel produced by an unescaped `^`. -/
def START : Sym := ['S', 'T', 'A', 'R', 'T']

/-- The `'END'` sentinel produced by an unescaped `$`. -/
def END : Sym := ['E', 'N', 'D']

/-- Parse trees: the four node kinds of `_parse`'s docstring. -/
inductive Tree where
  | alternate (cs : List Tree)
  | concat (cs : List Tree)
  | kleene (c : Tree)
  | literal (v : Sym)

namespace Tree

mutual

/-- Boolean structural equality of trees (Python tuple equality). -/
def beq : Tree → Tree → Bool
  | .alternate a, .alternate b => beqList a b
  | .concat a, .concat b => beqList a b
  | .kleene a, .kleene b => beq a b
  | .literal a, .literal b => a = b
  | _, _ => false

/-- Boolean structural equality of tree lists. -/
def beqList : List Tree → List Tree → Bool
  | [], [] => true
  | a :: as, b :: bs => beq a b && beqList as bs
  | _, _ => false

end

theorem sizeOf_lt_of_mem : ∀ {cs : List Tree} {t : Tree}, t ∈ cs → sizeOf t < sizeOf cs := by
  intro cs
  induction cs with
  | nil => intro t h; cases h
  | cons c cs ih =>
    intro t h
    rcases List.mem_cons.mp h with h | h
    · subst h
      simp
      omega
    · have := ih h
      simp
      omega

/-- Induction over trees giving the hypothesis at every member of a
child list. -/
theorem myInd (P : Tree → Prop)
    (halt : ∀ cs, (∀ c ∈ cs, P c) → P (.alternate cs))
    (hcat : ∀ cs, (∀ c ∈ cs, P c) → P (.concat cs))
    (hkle : ∀ c, P c → P (.kleene c))
    (hlit : ∀ v, P (.literal v)) : ∀ t, P t := by
  have main : ∀ n t, sizeOf t ≤ n → P t := by
    intro n
    induction n with
    | zero => intro t ht; cases t <;> simp at ht
    | succ n ih =>
      intro t ht
      cases t with
      | alternate cs =>
        refine halt cs (fun c hc => ih c ?_)
        have := sizeOf_lt_of_mem hc
        simp at ht
        omega
      | concat cs =>
        refine hcat cs (fun c hc => ih c ?_)
        have := sizeOf_lt_of_mem hc
        simp at ht
        omega
      | kleene c =>
        refine hkle c (ih c ?_)
        simp at ht
        omega
      | literal v => exact hlit v
  exact fun t => main (sizeOf t) t le_rfl

theorem beq_iff : ∀ a b : Tree, beq a b = true ↔ a = b := by
  have auxList : ∀ as bs : List Tree,
      (∀ a ∈ as, ∀ b, beq a b = true ↔ a = b) →
      (beqList as bs = true ↔ as = bs) := by
    intro as
    induction as with
    | nil => intro bs _; cases bs <;> simp [beqList]
    | cons a as ih =>
      intro bs h
      cases bs with
      | nil => simp [beqList]
      | cons b bs =>
        simp only [beqList, Bool.and_eq_true]
        rw [h a (List.mem_cons_self a as) b,
          ih bs (fun x hx => h x (List.mem_cons_of_mem a hx))]
        simp
  intro a
  induction a using myInd with
  | halt cs hcs =>
    intro b
    cases b with
    | alternate bs =>
      rw [show beq (.alternate cs) (.alternate bs) = beqList cs bs from rfl,
        auxList _ _ hcs]
      simp
    | concat bs => simp [beq]
    | kleene c => simp [beq]
    | literal v => simp [beq]
  | hcat cs hcs =>
    intro b
    cases b with
    | alternate bs => simp [beq]
    | concat bs =>
      rw [show beq (.concat cs) (.concat bs) = beqList cs bs from rfl,
        auxList _ _ hcs]
      simp
    | kleene c => simp [beq]
    | literal v => simp [beq]
  | hkle c hc =>
    intro b
    cases b with
    | alternate bs => simp [beq]
    | concat bs => simp [beq]
    | kleene b =>
      rw [show beq (.kleene c) (.kleene b) = beq c b from rfl, hc]
      simp
    | literal v => simp [beq]
  | hlit v =>
    intro b
    cases b <;> simp [beq]

instance : DecidableEq Tree := fun a b =>
  decidable_of_iff _ (beq_iff a b)

end Tree

instance {ε α : Type} [DecidableEq ε] [DecidableEq α] : DecidableEq (Except ε α) := fun a b =>
  match a, b with
  | .ok a, .ok b => decidable_of_iff (a = b) (by simp)
  | .error a, .error b => decidable_of_iff (a = b) (by simp)
  | .ok _, .error _ => isFalse (by simp)
  | .error _, .ok _ => isFalse (by simp)

/-- Insertion sort of a multiset, as a kernel-computable function
(Mathlib's `Multiset.sort` is a merge sort defined by well-founded
recursion, which the kernel cannot evaluate). -/
def insSortM {α : Type} [LinearOrder α] (m : Multiset α) : List α :=
  Quot.liftOn m (List.insertionSort (· ≤ ·)) (fun a b h =>
    List.eq_of_perm_of_sorted
      ((List.perm_insertionSort _ a).trans (h.trans (List.perm_insertionSort _ b).symm))
      (List.sorted_insertionSort _ a) (List.sorted_insertionSort _ b))

theorem insSortM_sorted {α : Type} [LinearOrder α] (m : Multiset α) :
    List.Sorted (· ≤ ·) (insSortM m) := by
  induction m using Quot.inductionOn with
  | h l => exact List.sorted_insertionSort _ l

theorem insSortM_coe {α : Type} [LinearOrder α] (m : Multiset α) :
    (insSortM m : Multiset α) = m := by
  induction m using Quot.inductionOn with
  | h l => exact Multiset.coe_eq_coe.mpr (List.perm_insertionSort _ l)

/-- Ascending iteration order over a finite set (used to model Python's
iteration over sets of small integers, which visits them in ascending
order). -/
def sortedFin {α : Type} [LinearOrder α] (s : Finset α) : List α :=
  insSortM s.val

theorem sortedFin_eq_sort {α : Type} [LinearOrder α] (s : Finset α) :
    sortedFin s = s.sort (· ≤ ·) :=
  List.eq_of_perm_of_sorted
    (Multiset.coe_eq_coe.mp (by
      rw [sortedFin, insSortM_coe]
      exact (Multiset.sort_eq (· ≤ ·) s.val).symm))
    (insSortM_sorted s.val) (Finset.sort_sorted (· ≤ ·) s)

/-- Errors: `ParseError msg` mirrors the source's exception; `outOfFuel`
marks exhaustion of the explicit fuel (proved unreachable below). -/
inductive PErr where
  | parseError (msg : String)
  | outOfFuel
deriving DecidableEq

/-- Items collected while scanning a character class: a plain character,
or the `'range'` marker the source leaves in place of `-`. -/
inductive CItem where
  | ch (c : Char)
  | rangeMark
deriving DecidableEq

/-- Scan a character class body up to the closing `]`
(the inner `while True` loop of `_parse`).  Returns the negation flag,
the collected items and the remaining input. -/
def collectClass (first negate : Bool) (chars : List CItem) :
    List Char → Except PErr (Bool × List CItem × List Char)
  | [] => .error (.parseError "Unterminated character set")
  | c :: rest =>
    if chars ≠ [] ∧ c = ']' then .ok (negate, chars, rest)
    else if c = '\\' then
      match rest with
      | [] => .error (.parseError "Unterminated escape")
      | e :: rest' => collectClass false negate (chars ++ [CItem.ch e]) rest'
    else if first ∧ c = '^' then collectClass false true chars rest
    else if c = '-' then collectClass false negate (chars ++ [CItem.rangeMark]) rest
    else collectClass false negate (chars ++ [CItem.ch c]) rest

/-- Convert a collected item back to a character
(`'-' if c == 'range' else c`). -/
def demark : CItem → Char
  | .ch c => c
  | .rangeMark => '-'

/-- `{chr(i) for i in range(ord(start), ord(end)+1)}`. -/
def rangeSet (s e : Char) : Finset Char :=
  ((List.range (e.toNat + 1 - s.toNat)).map (fun i => Char.ofNat (s.toNat + i))).toFinset

/-- The range-resolution pass over collected class items
(the `while len(chars) >= 3` loop). -/
def buildCharset (acc : Finset Char) : List CItem → Except PErr (Finset Char)
  | a :: b :: c :: rest =>
    if b = CItem.rangeMark then
      if (demark a).toNat > (demark c).toNat then
        .error (.parseError "Character range end must be after start")
      else buildCharset (acc ∪ rangeSet (demark a) (demark c)) rest
    else buildCharset (insert (demark a) acc) (b :: c :: rest)
  | items => .ok (acc ∪ (items.map demark).toFinset)

/-- The 256-character alphabet of a Python 2 byte string
(`{chr(i) for i in xrange(0x100)}`). -/
def allChars : Finset Char := ((List.range 256).map Char.ofNat).toFinset

/-- Scan the body of a `{...}` repeat operator up to `}`. -/
def collectRepeat : List Char → Except PErr (List Char × List Char)
  | [] => .error (.parseError "Unterminated repeat operator")
  | c :: rest =>
    if c = '}' then .ok ([], rest)
    else
      match collectRepeat rest with
      | .error e => .error e
      | .ok (rd, rest') => .ok (c :: rd, rest')

/-- `s.split(',', 1)`: split at the first comma, if any. -/
def splitComma : List Char → Option (List Char × List Char)
  | [] => none
  | c :: rest =>
    if c = ',' then some ([], rest)
    else (splitComma rest).map (fun p => (c :: p.1, p.2))

/-- Whitespace stripped by Python's `int()`. -/
def pySpace (c : Char) : Bool :=
  c = ' ' ∨ c = '\t' ∨ c = '\n' ∨ c = '\r' ∨ c = '\x0b' ∨ c = '\x0c'

/-- `s.strip()`. -/
def pyStrip (s : List Char) : List Char :=
  ((s.dropWhile pySpace).reverse.dropWhile pySpace).reverse

/-- Value of a nonempty all-digit string. -/
def digitsVal : List Char → Option Nat
  | [] => none
  | ds =>
    if ds.all Char.isDigit then
      some (ds.foldl (fun a c => a * 10 + (c.toNat - 48)) 0)
    else none

/-- Python 2 `int(s)`: optional surrounding whitespace, optional sign,
decimal digits; `none` models `ValueError`. -/
def pyInt (s : List Char) : Option Int :=
  match pyStrip s with
  | '+' :: ds => (digitsVal ds).map Int.ofNat
  | '-' :: ds => (digitsVal ds).map (fun n => -(n : Int))
  | ds => (digitsVal ds).map Int.ofNat

/-- `_parse_num`: a repeat bound must parse as a non-negative integer. -/
def parseNum (s : List Char) : Except PErr Nat :=
  match pyInt s with
  | some v =>
    if 0 ≤ v then .ok v.toNat
    else .error (.parseError "Repeat operator must be given up to two non-negative integers")
  | none => .error (.parseError "Repeat operator must be given up to two non-negative integers")

/-- Parse the bounds of a repeat operator from the text between braces:
`{M,N}`, `{M,}`, `{,N}`, `{M}`, `{}`. -/
def repeatBounds (rd : List Char) : Except PErr (Nat × Option Nat) := do
  let (l, m) := match splitComma rd with
    | some (l, m) => (l, m)
    | none => (rd, rd)
  let least ← if l = [] then pure 0 else parseNum l
  let most ← if m = [] then pure none else do pure (some (← parseNum m))
  pure (least, most)

/-- `('alternate', [('concat', parts) for parts in alternates])` with the
final alternative closed out. -/
def finishTree (alts : List (List Tree)) (parts : List Tree) : Tree :=
  .alternate ((alts ++ [parts]).map .concat)

/-- The tree a character class contributes:
`('alternate', [('literal', c) for c in charset])`
(set iteration modelled in ascending character order). -/
def classTree (charset : Finset Char) : Tree :=
  .alternate ((sortedFin charset).map (fun ch => Tree.literal [ch]))

/-- Read one escaped literal after a top-level `\`: take the next
character and treat it as text no matter what. -/
def escChar : List Char → Except PErr (Tree × List Char)
  | [] => .error (.parseError "Unterminated escape")
  | e :: rest' => .ok (Tree.literal [e], rest')

/-- The character-class head of `_parse`'s `.`/`[` branch: `.` is a
negation of no characters, `[` scans the class body. -/
def classScan (c : Char) (rest : List Char) :
    Except PErr (Bool × List CItem × List Char) :=
  if c = '.' then .ok (true, [], rest) else collectClass true false [] rest

/-- The tree a class contributes, negated against the full alphabet when
requested. -/
def classTreeOf (negate : Bool) (charset : Finset Char) : Tree :=
  classTree (if negate then allChars \ charset else charset)

/-- The repeat-bound head of `_parse`'s `*`/`+`/`{`/`?` branch,
normalising each operator to `(least, most)` with `most = none`
meaning unbounded. -/
def repScan (c : Char) (rest : List Char) :
    Except PErr (Nat × Option Nat × List Char) :=
  if c = '{' then
    match collectRepeat rest with
    | .error e => .error e
    | .ok (rd, rest') =>
      match repeatBounds rd with
      | .error e => .error e
      | .ok (least, most) => .ok (least, most, rest')
  else if c = '?' then .ok (0, some 1, rest)
  else if c = '*' then .ok (0, none, rest)
  else .ok (1, none, rest)

/-- `most < least` for a bounded repeat. -/
def badBounds (least : Nat) : Option Nat → Bool
  | some m => decide (m < least)
  | none => false

/-- Replace the popped value by `least` literal copies followed by a
kleene (unbounded) or `most - least` optional copies (bounded). -/
def applyRepeat (parts : List Tree) (value : Tree) (least : Nat) :
    Option Nat → List Tree
  | none => parts.dropLast ++ List.replicate least value ++ [Tree.kleene value]
  | some m =>
    parts.dropLast ++ List.replicate least value ++
      List.replicate (m - least) (Tree.alternate [Tree.concat [], value])

/-- The main loop of `_parse`, with the accumulated alternatives and the
parts of the current alternative as explicit state.  `fuel` bounds the
number of iterations plus recursive group descents; `parse` supplies
`data.length + 1`, which is shown sufficient below. -/
def parseLoop : Nat → List (List Tree) → List Tree → List Char →
    Except PErr (Tree × List Char)
  | 0, _, _, _ => .error .outOfFuel
  | _ + 1, alts, parts, [] => .ok (finishTree alts parts, [])
  | fuel + 1, alts, parts, c :: rest =>
    if c = '(' then
      match parseLoop fuel [] [] rest with
      | .error e => .error e
      | .ok (part, rem) =>
        match rem with
        | [] => .error (.parseError "Unterminated group")
        | _ :: rem' => parseLoop fuel alts (parts ++ [part]) rem'
    else if c = ')' then .ok (finishTree alts parts, c :: rest)
    else if c = '|' then parseLoop fuel (alts ++ [parts]) [] rest
    else if c = '.' ∨ c = '[' then
      match classScan c rest with
      | .error e => .error e
      | .ok (negate, chars, rest') =>
        match buildCharset ∅ chars with
        | .error e => .error e
        | .ok charset =>
          parseLoop fuel alts (parts ++ [classTreeOf negate charset]) rest'
    else if c = '*' ∨ c = '+' ∨ c = '{' ∨ c = '?' then
      match repScan c rest with
      | .error e => .error e
      | .ok (least, most, rest') =>
        if badBounds least most then
          .error (.parseError "Repeat operator maximum must be >= minimum")
        else
          match parts.getLast? with
          | none => .error (.parseError "Unary operator must follow a value")
          | some value => parseLoop fuel alts (applyRepeat parts value least most) rest'
    else if c = '\\' then
      match escChar rest with
      | .error e => .error e
      | .ok (t, rest') => parseLoop fuel alts (parts ++ [t]) rest'
    else if c = '^' then parseLoop fuel alts (parts ++ [Tree.literal START]) rest
    else if c = '$' then parseLoop fuel alts (parts ++ [Tree.literal END]) rest
    else parseLoop fuel alts (parts ++ [Tree.literal [c]]) rest

/-- Nested-alternate flattening inside `_simplify`. -/
def spliceAlts : List Tree → List Tree
  | [] => []
  | .alternate gs :: cs => gs ++ spliceAlts cs
  | c :: cs => c :: spliceAlts cs

/-- Nested-concat flattening inside `_simplify`. -/
def spliceConcats : List Tree → List Tree
  | [] => []
  | .concat gs :: cs => gs ++ spliceConcats cs
  | c :: cs => c :: spliceConcats cs

/-- Whether a node is a `kleene` node. -/
def isKleene : Tree → Bool
  | .kleene _ => true
  | _ => false

/-- The duplicate-removal loop of `_simplify` for `alternate` nodes:
keep first occurrences, and drop the empty concat when a kleene sibling
is present. -/
def dedupAcc (hasK : Bool) (acc : List Tree) : List Tree → List Tree
  | [] => acc
  | c :: cs =>
    if c ∈ acc then dedupAcc hasK acc cs
    else if hasK ∧ c = Tree.concat [] then dedupAcc hasK acc cs
    else dedupAcc hasK (acc ++ [c]) cs

/-- The `alternate`-specific tail of `_simplify`, applied to the
flattened simplified children: empty alternates become the empty
concat, duplicates (and the empty concat, when a kleene sibling is
present) are dropped, and singleton containers are elided. -/
def simpAltPost (children : List Tree) : Tree :=
  if children = [] then .concat []
  else
    match dedupAcc (children.any isKleene) [] children with
    | [c] => c
    | cs' => .alternate cs'

/-- The `concat`-specific tail of `_simplify`: singleton containers are
elided. -/
def simpCatPost : List Tree → Tree
  | [c] => c
  | cs' => .concat cs'

/-- The `kleene` tail of `_simplify`: a double kleene and a kleene of
the empty concat collapse to the simplified child. -/
def simpKlePost : Tree → Tree
  | .kleene c' => .kleene c'
  | .concat [] => .concat []
  | c' => .kleene c'

mutual

/-- `_simplify`. -/
def simplify : Tree → Tree
  | .alternate cs => simpAltPost (spliceAlts (simplifyList cs))
  | .concat cs => simpCatPost (spliceConcats (simplifyList cs))
  | .kleene c => simpKlePost (simplify c)
  | .literal v => .literal v

/-- `map(_simplify, value)`. -/
def simplifyList : List Tree → List Tree
  | [] => []
  | c :: cs => simplify c :: simplifyList cs

end

/-- `parse` on character lists: run `_parse`, reject a leftover `)`,
then simplify. -/
def parseTop (data : List Char) : Except PErr Tree :=
  match parseLoop (data.length + 1) [] [] data with
  | .error e => .error e
  | .ok (tree, rem) =>
    match rem with
    | [] => .ok (simplify tree)
    | _ :: _ => .error (.parseError "Close parenthesis without matching open parenthesis")

/-- `parse`: return a parse tree for the given regex string. -/
def parse (s : String) : Except PErr Tree := parseTop s.toList

/-- An NFA transition graph as an edge list: `(s, a, d) ∈ g` corresponds
to `d ∈ graph[s][a]` in the source's dict-of-dict-of-frozenset
representation (which never stores an empty destination set). -/
abbrev Nfa := List (Nat × Sym × Nat)

/-- The edges a literal contributes:
`{start: {value: {end}} for start in starts}`. -/
def litEdges (starts : Finset Nat) (v : Sym) (e : Nat) : Nfa :=
  (sortedFin starts).map (fun s => (s, v, e))

/-- One `new` iteration of `_nfa_merge_states`: merge `old`'s outgoing
transitions into `new`'s, then redirect every reference to `old` to
point to `new` instead. -/
def mergeStep (g : Nfa) (old new : Nat) : Nfa :=
  if old = new then g
  else
    (g ++ (g.filter (fun e => e.1 = old)).map (fun e => (new, e.2.1, e.2.2))).map
      (fun e => if e.2.2 = old then (e.1, e.2.1, new) else e)

/-- `_nfa_merge_states`: copy `old` into every state of `news` and
delete it (unless it is itself one of `news`). -/
def mergeStates (g : Nfa) (old : Nat) (news : Finset Nat) : Nfa :=
  let g' := (sortedFin news).foldl (fun g new => mergeStep g old new) g
  if old ∈ news then g' else g'.filter (fun e => e.1 ≠ old)

mutual

/-- `_to_nfa`: returns (end states, graph, next fresh state id); the
state-id counter is threaded explicitly.  `_nfa_merge` on dicts is
union of transition sets, hence list append here. -/
def toNfaAux : Tree → Finset Nat → Nat → Finset Nat × Nfa × Nat
  | .literal v, starts, n => ({n}, litEdges starts v n, n + 1)
  | .kleene c, starts, n =>
    let (ends, g, n') := toNfaAux c starts n
    (starts, (sortedFin ends).foldl (fun g e => mergeStates g e starts) g, n')
  | .concat cs, starts, n => toNfaConcat cs starts n
  | .alternate cs, starts, n => toNfaAlt cs starts n

/-- The `concat` loop of `_to_nfa`: thread each child's end states into
the next child's start states. -/
def toNfaConcat : List Tree → Finset Nat → Nat → Finset Nat × Nfa × Nat
  | [], starts, n => (starts, [], n)
  | c :: cs, starts, n =>
    let (ends, g, n') := toNfaAux c starts n
    let (ends', g', n'') := toNfaConcat cs ends n'
    (ends', g ++ g', n'')

/-- The `alternate` loop of `_to_nfa`: compile every child from the same
start states and union the end states. -/
def toNfaAlt : List Tree → Finset Nat → Nat → Finset Nat × Nfa × Nat
  | [], _, n => (∅, [], n)
  | c :: cs, starts, n =>
    let (ends, g, n') := toNfaAux c starts n
    let (ends', g', n'') := toNfaAlt cs starts n'
    (ends ∪ ends', g ++ g', n'')

end

/-- `to_nfa`: compile from start state `{0}` with fresh ids from 1. -/
def toNfa (t : Tree) : Finset Nat × Nfa :=
  let (ends, g, _) := toNfaAux t {0} 1
  (ends, g)

/-- Every state id mentioned in the graph, plus the start state 0. -/
def nfaStates (nfa : Nfa) : Finset Nat :=
  insert 0 ((nfa.map (fun e => e.1)).toFinset ∪ (nfa.map (fun e => e.2.2)).toFinset)

/-- Union over `nfa_state ∈ S` of `nfa[nfa_state][a]`: the combined
destination set of the DFA state `S` on symbol `a`. -/
def dests (nfa : Nfa) (S : Finset Nat) (a : Sym) : Finset Nat :=
  ((nfa.filter (fun e => e.1 ∈ S ∧ e.2.1 = a)).map (fun e => e.2.2)).toFinset

/-- The transition map `_to_dfa` records for a subset `S`: a symbol maps
to the combined destination set, absent (`none`) when that set is empty
(the source's dict never stores an empty set). -/
def tmOf (nfa : Nfa) (S : Finset Nat) (a : Sym) : Option (Finset Nat) :=
  if dests nfa S a = ∅ then none else some (dests nfa S a)

/-- The enqueue loop of `_to_dfa`: each candidate destination subset is
appended to the worklist unless it is already pending, already
collected, or already expanded
(`if new_state not in to_expand | expanded`). -/
def enqueue (rest exp acc cands : List (Finset Nat)) : List (Finset Nat) :=
  cands.foldl (fun acc d => if d ∈ rest ∨ d ∈ acc ∨ d ∈ exp then acc else acc ++ [d]) acc

/-- The worklist loop of `_to_dfa`.  The DFA is represented by its list
of expanded keys: the transition map the source stores at key `S` is
exactly `tmOf nfa S`, a function of `S` and the NFA alone, so recording
the keys loses nothing.  `none` models a non-terminating loop (proved
unreachable: the fuel supplied by `toDfa` suffices). -/
def dfaLoop (nfa : Nfa) : Nat → List (Finset Nat) → List (Finset Nat) →
    Option (List (Finset Nat))
  | _, [], expanded => some expanded
  | 0, _ :: _, _ => none
  | fuel + 1, S :: rest, expanded =>
    dfaLoop nfa fuel
      (rest ++ enqueue rest (expanded ++ [S]) []
        ((nfa.filter (fun e => e.1 ∈ S)).map (fun e => dests nfa S e.2.1)))
      (expanded ++ [S])

/-- `_to_dfa`: subset construction from the start subset `{0}`. -/
def toDfa (nfa : Nfa) : Option (List (Finset Nat)) :=
  dfaLoop nfa (2 ^ (nfaStates nfa).card + 1) [{0}] []

/-- The walk of `_match`: one DFA edge lookup per input character.
`none` models the `KeyError` raised by `dfa[state]` when `state` is not
a key of the DFA (proved unreachable below). -/
def matchWalk (nfa : Nfa) (keys : List (Finset Nat)) (targets : Finset Nat) :
    Finset Nat → List Char → Option Bool
  | state, [] => some (decide (state ∩ targets).Nonempty)
  | state, c :: rest =>
    if state ∈ keys then
      match tmOf nfa state [c] with
      | none => some false
      | some st' => matchWalk nfa keys targets st' rest
    else none

/-- `match(pattern, data)`: `.error` models a `ParseError`; `.ok none`
models a crash (`KeyError` in `_match`) or a non-terminating
`_to_dfa` loop, both proved unreachable; `.ok (some b)` is the boolean
result. -/
def matchRe (pattern data : String) : Except PErr (Option Bool) :=
  match parse pattern with
  | .error e => .error e
  | .ok t =>
    let (targets, nfa) := toNfa t
    match toDfa nfa with
    | none => .ok none
    | some keys => .ok (matchWalk nfa keys targets {0} data.toList)

/-! ## Canonical form of simplified trees -/

/-- Whether a node is an `alternate` node. -/
def isAlt : Tree → Bool
  | .alternate _ => true
  | _ => false

/-- Whether a node is a `concat` node. -/
def isCat : Tree → Bool
  | .concat _ => true
  | _ => false

mutual

/-- Canonical form: exactly the trees `_simplify` leaves unchanged.
An `alternate` has at least two children, none of them `alternate`s,
without duplicates, and without the empty concat when a kleene sibling
is present; a `concat` never has exactly one child and no `concat`
children; a `kleene` child is neither a `kleene` nor the empty concat. -/
def Canon : Tree → Prop
  | .alternate cs => CanonList cs ∧ (∀ c ∈ cs, isAlt c = false) ∧ 2 ≤ cs.length ∧
      cs.Nodup ∧ (cs.any isKleene = true → Tree.concat [] ∉ cs)
  | .concat cs => CanonList cs ∧ (∀ c ∈ cs, isCat c = false) ∧ cs.length ≠ 1
  | .kleene c => Canon c ∧ isKleene c = false ∧ c ≠ .concat []
  | .literal _ => True

/-- All members of a list are canonical. -/
def CanonList : List Tree → Prop
  | [] => True
  | c :: cs => Canon c ∧ CanonList cs

end

theorem canonList_iff : ∀ cs : List Tree, CanonList cs ↔ ∀ c ∈ cs, Canon c := by
  intro cs
  induction cs with
  | nil => simp [CanonList]
  | cons c cs ih => simp [CanonList, ih]

theorem simplifyList_eq : ∀ cs : List Tree, (∀ c ∈ cs, simplify c = c) →
    simplifyList cs = cs := by
  intro cs
  induction cs with
  | nil => intro _; rfl
  | cons c cs ih =>
    intro h
    rw [simplifyList, h c (List.mem_cons_self c cs), ih (fun x hx => h x (List.mem_cons_of_mem c hx))]

theorem mem_simplifyList : ∀ cs : List Tree, ∀ x ∈ simplifyList cs,
    ∃ c ∈ cs, x = simplify c := by
  intro cs
  induction cs with
  | nil => intro x hx; cases hx
  | cons c cs ih =>
    intro x hx
    rw [simplifyList] at hx
    rcases List.mem_cons.mp hx with h | h
    · exact ⟨c, List.mem_cons_self c cs, h⟩
    · obtain ⟨c', hc', he⟩ := ih x h
      exact ⟨c', List.mem_cons_of_mem c hc', he⟩

theorem spliceAlts_eq_self : ∀ cs : List Tree, (∀ c ∈ cs, isAlt c = false) →
    spliceAlts cs = cs := by
  intro cs
  induction cs with
  | nil => intro _; rfl
  | cons c cs ih =>
    intro h
    have hc := h c (List.mem_cons_self c cs)
    have hrest := ih (fun x hx => h x (List.mem_cons_of_mem c hx))
    cases c with
    | alternate gs => simp [isAlt] at hc
    | concat gs => show Tree.concat gs :: spliceAlts cs = _; rw [hrest]
    | kleene g => show Tree.kleene g :: spliceAlts cs = _; rw [hrest]
    | literal v => show Tree.literal v :: spliceAlts cs = _; rw [hrest]

theorem spliceConcats_eq_self : ∀ cs : List Tree, (∀ c ∈ cs, isCat c = false) →
    spliceConcats cs = cs := by
  intro cs
  induction cs with
  | nil => intro _; rfl
  | cons c cs ih =>
    intro h
    have hc := h c (List.mem_cons_self c cs)
    have hrest := ih (fun x hx => h x (List.mem_cons_of_mem c hx))
    cases c with
    | concat gs => simp [isCat] at hc
    | alternate gs => show Tree.alternate gs :: spliceConcats cs = _; rw [hrest]
    | kleene g => show Tree.kleene g :: spliceConcats cs = _; rw [hrest]
    | literal v => show Tree.literal v :: spliceConcats cs = _; rw [hrest]

theorem mem_spliceAlts_of_canon : ∀ cs : List Tree, (∀ c ∈ cs, Canon c) →
    ∀ x ∈ spliceAlts cs, Canon x ∧ isAlt x = false := by
  intro cs
  induction cs with
  | nil => intro _ x hx; cases hx
  | cons c cs ih =>
    intro h x hx
    have hc := h c (List.mem_cons_self c cs)
    have hrest := ih (fun y hy => h y (List.mem_cons_of_mem c hy))
    cases c with
    | alternate gs =>
      rw [spliceAlts] at hx
      rcases List.mem_append.mp hx with h' | h'
      · obtain ⟨hcl, hna, -⟩ := hc
        exact ⟨(canonList_iff gs).mp hcl x h', hna x h'⟩
      · exact hrest x h'
    | concat gs =>
      have hx' : x ∈ Tree.concat gs :: spliceAlts cs := hx
      rcases List.mem_cons.mp hx' with h' | h'
      · subst h'; exact ⟨hc, rfl⟩
      · exact hrest x h'
    | kleene g =>
      have hx' : x ∈ Tree.kleene g :: spliceAlts cs := hx
      rcases List.mem_cons.mp hx' with h' | h'
      · subst h'; exact ⟨hc, rfl⟩
      · exact hrest x h'
    | literal v =>
      have hx' : x ∈ Tree.literal v :: spliceAlts cs := hx
      rcases List.mem_cons.mp hx' with h' | h'
      · subst h'; exact ⟨hc, rfl⟩
      · exact hrest x h'

theorem mem_spliceConcats_of_canon : ∀ cs : List Tree, (∀ c ∈ cs, Canon c) →
    ∀ x ∈ spliceConcats cs, Canon x ∧ isCat x = false := by
  intro cs
  induction cs with
  | nil => intro _ x hx; cases hx
  | cons c cs ih =>
    intro h x hx
    have hc := h c (List.mem_cons_self c cs)
    have hrest := ih (fun y hy => h y (List.mem_cons_of_mem c hy))
    cases c with
    | concat gs =>
      rw [spliceConcats] at hx
      rcases List.mem_append.mp hx with h' | h'
      · obtain ⟨hcl, hnc, -⟩ := hc
        exact ⟨(canonList_iff gs).mp hcl x h', hnc x h'⟩
      · exact hrest x h'
    | alternate gs =>
      have hx' : x ∈ Tree.alternate gs :: spliceConcats cs := hx
      rcases List.mem_cons.mp hx' with h' | h'
      · subst h'; exact ⟨hc, rfl⟩
      · exact hrest x h'
    | kleene g =>
      have hx' : x ∈ Tree.kleene g :: spliceConcats cs := hx
      rcases List.mem_cons.mp hx' with h' | h'
      · subst h'; exact ⟨hc, rfl⟩
      · exact hrest x h'
    | literal v =>
      have hx' : x ∈ Tree.literal v :: spliceConcats cs := hx
      rcases List.mem_cons.mp hx' with h' | h'
      · subst h'; exact ⟨hc, rfl⟩
      · exact hrest x h'

theorem mem_dedupAcc : ∀ (hasK : Bool) (cs acc : List Tree) (x : Tree),
    x ∈ dedupAcc hasK acc cs → x ∈ acc ∨ x ∈ cs := by
  intro hasK cs
  induction cs with
  | nil => intro acc x hx; exact Or.inl hx
  | cons c cs ih =>
    intro acc x hx
    rw [dedupAcc] at hx
    by_cases h1 : c ∈ acc
    · rw [if_pos h1] at hx
      rcases ih acc x hx with h | h
      · exact Or.inl h
      · exact Or.inr (List.mem_cons_of_mem c h)
    · rw [if_neg h1] at hx
      by_cases h2 : hasK = true ∧ c = Tree.concat []
      · rw [if_pos h2] at hx
        rcases ih acc x hx with h | h
        · exact Or.inl h
        · exact Or.inr (List.mem_cons_of_mem c h)
      · rw [if_neg h2] at hx
        rcases ih (acc ++ [c]) x hx with h | h
        · rcases List.mem_append.mp h with h | h
          · exact Or.inl h
          · simp at h
            exact Or.inr (by rw [h]; exact List.mem_cons_self c cs)
        · exact Or.inr (List.mem_cons_of_mem c h)

theorem dedupAcc_nodup : ∀ (hasK : Bool) (cs acc : List Tree), acc.Nodup →
    (dedupAcc hasK acc cs).Nodup := by
  intro hasK cs
  induction cs with
  | nil => intro acc h; exact h
  | cons c cs ih =>
    intro acc h
    rw [dedupAcc]
    by_cases h1 : c ∈ acc
    · rw [if_pos h1]; exact ih acc h
    · rw [if_neg h1]
      by_cases h2 : hasK = true ∧ c = Tree.concat []
      · rw [if_pos h2]; exact ih acc h
      · rw [if_neg h2]
        refine ih (acc ++ [c]) ?_
        simp [List.nodup_append, h, h1]

theorem dedupAcc_not_mem_empty : ∀ (cs acc : List Tree), Tree.concat [] ∉ acc →
    Tree.concat [] ∉ dedupAcc true acc cs := by
  intro cs
  induction cs with
  | nil => intro acc h; exact h
  | cons c cs ih =>
    intro acc h
    rw [dedupAcc]
    by_cases h1 : c ∈ acc
    · rw [if_pos h1]; exact ih acc h
    · rw [if_neg h1]
      by_cases h2 : (true : Bool) = true ∧ c = Tree.concat []
      · rw [if_pos h2]; exact ih acc h
      · rw [if_neg h2]
        refine ih (acc ++ [c]) ?_
        simp only [List.mem_append, List.mem_singleton]
        rintro (hmem | hmem)
        · exact h hmem
        · exact h2 ⟨rfl, hmem.symm⟩

theorem dedupAcc_eq_self : ∀ (hasK : Bool) (cs acc : List Tree), (acc ++ cs).Nodup →
    (hasK = true → Tree.concat [] ∉ cs) → dedupAcc hasK acc cs = acc ++ cs := by
  intro hasK cs
  induction cs with
  | nil => intro acc _ _; simp [dedupAcc]
  | cons c cs ih =>
    intro acc hnd hke
    rw [dedupAcc]
    have h1 : c ∉ acc := by
      intro hmem
      have := List.disjoint_of_nodup_append hnd
      exact this hmem (List.mem_cons_self c cs)
    rw [if_neg h1]
    have h2 : ¬(hasK = true ∧ c = Tree.concat []) := by
      rintro ⟨hK, rfl⟩
      exact hke hK (List.mem_cons_self _ cs)
    rw [if_neg h2]
    have : dedupAcc hasK (acc ++ [c]) cs = (acc ++ [c]) ++ cs := by
      refine ih (acc ++ [c]) ?_ (fun hK hmem => hke hK (List.mem_cons_of_mem c hmem))
      simpa using hnd
    rw [this]
    simp

theorem dedupAcc_eq_nil : ∀ (hasK : Bool) (cs acc : List Tree),
    dedupAcc hasK acc cs = [] → acc = [] ∧ ∀ c ∈ cs, hasK = true ∧ c = Tree.concat [] := by
  intro hasK cs
  induction cs with
  | nil =>
    intro acc h
    exact ⟨h, by simp⟩
  | cons c cs ih =>
    intro acc h
    rw [dedupAcc] at h
    by_cases h1 : c ∈ acc
    · rw [if_pos h1] at h
      obtain ⟨hacc, -⟩ := ih acc h
      subst hacc
      cases h1
    · rw [if_neg h1] at h
      by_cases h2 : hasK = true ∧ c = Tree.concat []
      · rw [if_pos h2] at h
        obtain ⟨hacc, hall⟩ := ih acc h
        refine ⟨hacc, fun x hx => ?_⟩
        rcases List.mem_cons.mp hx with hx | hx
        · exact hx ▸ h2
        · exact hall x hx
      · rw [if_neg h2] at h
        obtain ⟨hacc, -⟩ := ih (acc ++ [c]) h
        simp at hacc

theorem simpAltPost_eq (cs : List Tree) (hlen : 2 ≤ cs.length) (hnd : cs.Nodup)
    (hke : cs.any isKleene = true → Tree.concat [] ∉ cs) :
    simpAltPost cs = .alternate cs := by
  rw [simpAltPost, if_neg (by rintro rfl; simp at hlen)]
  rw [show dedupAcc (cs.any isKleene) [] cs = cs from dedupAcc_eq_self _ cs [] (by simpa using hnd) hke]
  rcases cs with _ | ⟨a, _ | ⟨b, rest⟩⟩
  · simp at hlen
  · simp at hlen
  · rfl

theorem simpCatPost_eq (cs : List Tree) (hlen : cs.length ≠ 1) :
    simpCatPost cs = .concat cs := by
  rcases cs with _ | ⟨a, _ | ⟨b, rest⟩⟩
  · rfl
  · simp at hlen
  · rfl

theorem simpKlePost_eq (c : Tree) (hk : isKleene c = false) (he : c ≠ .concat []) :
    simpKlePost c = .kleene c := by
  cases c with
  | alternate cs => rfl
  | concat cs =>
    rcases cs with _ | ⟨a, rest⟩
    · exact absurd rfl he
    · rfl
  | kleene g => simp [isKleene] at hk
  | literal v => rfl

theorem canon_simpAltPost (children : List Tree)
    (hmem : ∀ x ∈ children, Canon x ∧ isAlt x = false) :
    Canon (simpAltPost children) := by
  rw [simpAltPost]
  by_cases hnil : children = []
  · rw [if_pos hnil]
    exact ⟨trivial, by simp, by simp⟩
  · rw [if_neg hnil]
    have hd_ne : dedupAcc (children.any isKleene) [] children ≠ [] := by
      intro hd
      obtain ⟨-, hall⟩ := dedupAcc_eq_nil _ children [] hd
      rcases List.exists_mem_of_ne_nil children hnil with ⟨c0, hc0⟩
      obtain ⟨hK, -⟩ := hall c0 hc0
      obtain ⟨k, hk, hkk⟩ := List.any_eq_true.mp hK
      obtain ⟨-, hke⟩ := hall k hk
      subst hke
      simp [isKleene] at hkk
    have hd_mem : ∀ x ∈ dedupAcc (children.any isKleene) [] children,
        Canon x ∧ isAlt x = false := by
      intro x hx
      rcases mem_dedupAcc _ children [] x hx with h | h
      · cases h
      · exact hmem x h
    have hd_nd : (dedupAcc (children.any isKleene) [] children).Nodup :=
      dedupAcc_nodup _ children [] List.nodup_nil
    rcases hdd : dedupAcc (children.any isKleene) [] children with _ | ⟨a, _ | ⟨b, rest⟩⟩
    · exact absurd hdd hd_ne
    · exact (hd_mem a (by rw [hdd]; exact List.mem_cons_self _ _)).1
    · rw [hdd] at hd_mem hd_nd
      refine ⟨(canonList_iff _).mpr (fun c hc => (hd_mem c hc).1),
        fun c hc => (hd_mem c hc).2, by simp, hd_nd, ?_⟩
      intro hK hmem'
      by_cases hck : children.any isKleene = true
      · have := dedupAcc_not_mem_empty children [] (by simp)
        rw [hck] at hdd
        rw [hdd] at this
        exact this hmem'
      · obtain ⟨k, hk, hkk⟩ := List.any_eq_true.mp hK
        have : k ∈ children := by
          rcases mem_dedupAcc _ children [] k (by rw [hdd]; exact hk) with h | h
          · cases h
          · exact h
        exact hck (List.any_eq_true.mpr ⟨k, this, hkk⟩)

theorem canon_simpCatPost (children : List Tree)
    (hmem : ∀ x ∈ children, Canon x ∧ isCat x = false) :
    Canon (simpCatPost children) := by
  rcases children with _ | ⟨a, _ | ⟨b, rest⟩⟩
  · exact ⟨trivial, by simp, by simp⟩
  · exact (hmem a (List.mem_cons_self _ _)).1
  · exact ⟨(canonList_iff _).mpr (fun c hc => (hmem c hc).1),
      fun c hc => (hmem c hc).2, by simp⟩

theorem canon_simpKlePost (c : Tree) (hc : Canon c) : Canon (simpKlePost c) := by
  cases c with
  | alternate cs => exact ⟨hc, rfl, by simp⟩
  | concat cs =>
    rcases cs with _ | ⟨a, rest⟩
    · exact ⟨trivial, by simp, by simp⟩
    · exact ⟨hc, rfl, by simp⟩
  | kleene g => exact hc
  | literal v => exact ⟨hc, rfl, by simp⟩

theorem canon_simplify : ∀ t, Canon (simplify t) := by
  intro t
  induction t using Tree.myInd with
  | halt cs ih =>
    refine canon_simpAltPost _ (mem_spliceAlts_of_canon _ ?_)
    intro x hx
    obtain ⟨c, hc, he⟩ := mem_simplifyList cs x hx
    exact he ▸ ih c hc
  | hcat cs ih =>
    refine canon_simpCatPost _ (mem_spliceConcats_of_canon _ ?_)
    intro x hx
    obtain ⟨c, hc, he⟩ := mem_simplifyList cs x hx
    exact he ▸ ih c hc
  | hkle c ih => exact canon_simpKlePost _ ih
  | hlit v => trivial

theorem simplify_of_canon : ∀ t, Canon t → simplify t = t := by
  intro t
  induction t using Tree.myInd with
  | halt cs ih =>
    intro hC
    obtain ⟨hcl, hna, hlen, hnd, hke⟩ := hC
    have hsl : simplifyList cs = cs :=
      simplifyList_eq cs (fun c hc => ih c hc ((canonList_iff cs).mp hcl c hc))
    show simpAltPost (spliceAlts (simplifyList cs)) = .alternate cs
    rw [hsl, spliceAlts_eq_self cs hna, simpAltPost_eq cs hlen hnd hke]
  | hcat cs ih =>
    intro hC
    obtain ⟨hcl, hnc, hlen⟩ := hC
    have hsl : simplifyList cs = cs :=
      simplifyList_eq cs (fun c hc => ih c hc ((canonList_iff cs).mp hcl c hc))
    show simpCatPost (spliceConcats (simplifyList cs)) = .concat cs
    rw [hsl, spliceConcats_eq_self cs hnc, simpCatPost_eq cs hlen]
  | hkle c ih =>
    intro hC
    obtain ⟨hc, hk, he⟩ := hC
    show simpKlePost (simplify c) = .kleene c
    rw [ih hc, simpKlePost_eq c hk he]
  | hlit v => intro _; rfl

mutual

/-- The structural conditions that claim C6 lists, required at every
node of a tree: no `concat` directly contains a `concat`, no `alternate`
directly contains an `alternate`, no container has exactly one child, no
`kleene` child is a `kleene` or the empty concat, and no `alternate` is
empty. -/
def SimplifiedShape : Tree → Prop
  | .alternate cs => ShapeList cs ∧ (∀ c ∈ cs, isAlt c = false) ∧ cs ≠ [] ∧ cs.length ≠ 1
  | .concat cs => ShapeList cs ∧ (∀ c ∈ cs, isCat c = false) ∧ cs.length ≠ 1
  | .kleene c => SimplifiedShape c ∧ isKleene c = false ∧ c ≠ .concat []
  | .literal _ => True

/-- All members of a list satisfy `SimplifiedShape`. -/
def ShapeList : List Tree → Prop
  | [] => True
  | c :: cs => SimplifiedShape c ∧ ShapeList cs

end

theorem shapeList_iff : ∀ cs : List Tree, ShapeList cs ↔ ∀ c ∈ cs, SimplifiedShape c := by
  intro cs
  induction cs with
  | nil => simp [ShapeList]
  | cons c cs ih => simp [ShapeList, ih]

theorem shape_of_canon : ∀ t, Canon t → SimplifiedShape t := by
  intro t
  induction t using Tree.myInd with
  | halt cs ih =>
    intro hC
    obtain ⟨hcl, hna, hlen, -, -⟩ := hC
    refine ⟨(shapeList_iff cs).mpr
      (fun c hc => ih c hc ((canonList_iff cs).mp hcl c hc)), hna, ?_, ?_⟩
    · rintro rfl; simp at hlen
    · omega
  | hcat cs ih =>
    intro hC
    obtain ⟨hcl, hnc, hlen⟩ := hC
    exact ⟨(shapeList_iff cs).mpr
      (fun c hc => ih c hc ((canonList_iff cs).mp hcl c hc)), hnc, hlen⟩
  | hkle c ih =>
    intro hC
    obtain ⟨hc, hk, he⟩ := hC
    exact ⟨ih hc, hk, he⟩
  | hlit v => intro _; trivial

/-- C6: every tree returned by `simplify` satisfies, at every node: no
`Concat` directly contains a `Concat` child; no `Alternate` directly
contains an `Alternate` child; no `Concat` or `Alternate` has exactly
one child; no `Kleene` child is a `Kleene`; no `Kleene` child is the
empty `Concat`; and no `Alternate` has zero children (an empty
`Alternate` becomes the empty `Concat`). -/
theorem C6_simplify_invariant : ∀ t : Tree, SimplifiedShape (simplify t) :=
  fun t => shape_of_canon _ (canon_simplify t)

/-- C7: `simplify` is idempotent: simplifying twice gives the same tree
as simplifying once. -/
theorem C7_simplify_idempotent : ∀ t : Tree, simplify (simplify t) = simplify t :=
  fun t => simplify_of_canon _ (canon_simplify t)

/-! ## Termination and closure of the subset construction -/

theorem dests_subset (nfa : Nfa) (S : Finset Nat) (a : Sym) :
    dests nfa S a ⊆ nfaStates nfa := by
  intro x hx
  rw [dests] at hx
  rw [List.mem_toFinset, List.mem_map] at hx
  obtain ⟨e, he, rfl⟩ := hx
  have he' : e ∈ nfa := (List.mem_filter.mp he).1
  rw [nfaStates]
  refine Finset.mem_insert_of_mem (Finset.mem_union_right _ ?_)
  rw [List.mem_toFinset, List.mem_map]
  exact ⟨e, he', rfl⟩

theorem mem_enqueue : ∀ (rest exp cands acc : List (Finset Nat)) (x : Finset Nat),
    x ∈ enqueue rest exp acc cands → x ∈ acc ∨ x ∈ cands := by
  intro rest exp cands
  induction cands with
  | nil => intro acc x hx; exact Or.inl hx
  | cons d ds ih =>
    intro acc x hx
    rw [enqueue, List.foldl_cons] at hx
    by_cases h : d ∈ rest ∨ d ∈ acc ∨ d ∈ exp
    · rw [if_pos h] at hx
      rcases ih acc x hx with h' | h'
      · exact Or.inl h'
      · exact Or.inr (List.mem_cons_of_mem d h')
    · rw [if_neg h] at hx
      rcases ih (acc ++ [d]) x hx with h' | h'
      · rcases List.mem_append.mp h' with h' | h'
        · exact Or.inl h'
        · simp at h'
          exact Or.inr (by rw [h']; exact List.mem_cons_self d ds)
      · exact Or.inr (List.mem_cons_of_mem d h')

theorem enqueue_covers : ∀ (rest exp cands acc : List (Finset Nat)) (d : Finset Nat),
    d ∈ cands → d ∈ rest ∨ d ∈ exp ∨ d ∈ enqueue rest exp acc cands := by
  have hsup : ∀ (rest exp cands acc : List (Finset Nat)) (x : Finset Nat),
      x ∈ acc → x ∈ enqueue rest exp acc cands := by
    intro rest exp cands
    induction cands with
    | nil => intro acc x hx; exact hx
    | cons d ds ih =>
      intro acc x hx
      rw [enqueue, List.foldl_cons]
      by_cases h : d ∈ rest ∨ d ∈ acc ∨ d ∈ exp
      · rw [if_pos h]; exact ih acc x hx
      · rw [if_neg h]; exact ih (acc ++ [d]) x (List.mem_append_left _ hx)
  intro rest exp cands
  induction cands with
  | nil => intro acc d hd; cases hd
  | cons c cs ih =>
    intro acc d hd
    rw [enqueue, List.foldl_cons]
    rcases List.mem_cons.mp hd with hd | hd
    · subst hd
      by_cases h : d ∈ rest ∨ d ∈ acc ∨ d ∈ exp
      · rcases h with h | h | h
        · exact Or.inl h
        · rw [if_pos (Or.inr (Or.inl h))]
          exact Or.inr (Or.inr (hsup rest exp cs acc d h))
        · exact Or.inr (Or.inl h)
      · rw [if_neg h]
        exact Or.inr (Or.inr (hsup rest exp cs (acc ++ [d]) d
          (List.mem_append_right _ (List.mem_singleton.mpr rfl))))
    · by_cases h : c ∈ rest ∨ c ∈ acc ∨ c ∈ exp
      · rw [if_pos h]; exact ih acc d hd
      · rw [if_neg h]; exact ih (acc ++ [c]) d hd

theorem enqueue_inv : ∀ (rest exp cands acc : List (Finset Nat)),
    acc.Nodup → (∀ d ∈ acc, d ∉ rest ∧ d ∉ exp) →
    (enqueue rest exp acc cands).Nodup ∧
      ∀ d ∈ enqueue rest exp acc cands, d ∉ rest ∧ d ∉ exp := by
  intro rest exp cands
  induction cands with
  | nil => intro acc h1 h2; exact ⟨h1, h2⟩
  | cons c cs ih =>
    intro acc h1 h2
    rw [enqueue, List.foldl_cons]
    by_cases h : c ∈ rest ∨ c ∈ acc ∨ c ∈ exp
    · rw [if_pos h]; exact ih acc h1 h2
    · rw [if_neg h]
      push_neg at h
      obtain ⟨hr, ha, he⟩ := h
      refine ih (acc ++ [c]) ?_ ?_
      · simp [List.nodup_append, h1, ha]
      · intro d hd
        rcases List.mem_append.mp hd with hd | hd
        · exact h2 d hd
        · simp at hd
          rw [hd]
          exact ⟨hr, he⟩

/-- One worklist iteration strictly shrinks the set of subsets of the
NFA's states that have not yet been expanded. -/
theorem filter_exp_snoc (P : Finset (Finset Nat)) (exp : List (Finset Nat)) (S : Finset Nat)
    (hS : S ∈ P) (hSe : S ∉ exp) :
    (P.filter (fun T => T ∉ exp ++ [S])).card < (P.filter (fun T => T ∉ exp)).card := by
  have hsub : P.filter (fun T => T ∉ exp ++ [S]) = (P.filter (fun T => T ∉ exp)).erase S := by
    ext T
    simp only [Finset.mem_filter, Finset.mem_erase, List.mem_append, List.mem_singleton]
    constructor
    · rintro ⟨hp, hne⟩
      push_neg at hne
      exact ⟨hne.2, hp, hne.1⟩
    · rintro ⟨hne, hp, he⟩
      push_neg
      exact ⟨hp, he, hne⟩
  rw [hsub]
  exact Finset.card_erase_lt_of_mem (Finset.mem_filter.mpr ⟨hS, hSe⟩)

theorem dfaLoop_isSome (nfa : Nfa) : ∀ (fuel : Nat) (toE exp : List (Finset Nat)),
    (∀ S ∈ toE, S ⊆ nfaStates nfa) → toE.Nodup → (∀ S ∈ toE, S ∉ exp) →
    ((nfaStates nfa).powerset.filter (fun T => T ∉ exp)).card < fuel →
    (dfaLoop nfa fuel toE exp).isSome := by
  intro fuel
  induction fuel with
  | zero =>
    intro toE exp _ _ _ hcard
    exact absurd hcard (by omega)
  | succ fuel ih =>
    intro toE exp hP hnd hdisj hcard
    cases toE with
    | nil => rw [dfaLoop]; rfl
    | cons S rest =>
      rw [dfaLoop]
      have hSP : S ∈ (nfaStates nfa).powerset :=
        Finset.mem_powerset.mpr (hP S (List.mem_cons_self S rest))
      have hSe : S ∉ exp := hdisj S (List.mem_cons_self S rest)
      have hcands : ∀ d ∈ (nfa.filter (fun e => e.1 ∈ S)).map (fun e => dests nfa S e.2.1),
          d ⊆ nfaStates nfa := by
        intro d hd
        rw [List.mem_map] at hd
        obtain ⟨e, -, rfl⟩ := hd
        exact dests_subset nfa S _
      obtain ⟨hq_nd, hq_notin⟩ := enqueue_inv rest (exp ++ [S])
        ((nfa.filter (fun e => e.1 ∈ S)).map (fun e => dests nfa S e.2.1)) []
        List.nodup_nil (by simp)
      refine ih _ _ ?_ ?_ ?_ ?_
      · intro T hT
        rcases List.mem_append.mp hT with hT | hT
        · exact hP T (List.mem_cons_of_mem S hT)
        · rcases mem_enqueue _ _ _ _ T hT with h | h
          · cases h
          · exact hcands T h
      · rw [List.nodup_append]
        refine ⟨(List.nodup_cons.mp hnd).2, hq_nd, ?_⟩
        intro T hT hT'
        exact (hq_notin T hT').1 hT
      · intro T hT
        rcases List.mem_append.mp hT with hmem | hmem
        · simp only [List.mem_append, List.mem_singleton]
          push_neg
          refine ⟨hdisj T (List.mem_cons_of_mem S hmem), ?_⟩
          rintro rfl
          exact (List.nodup_cons.mp hnd).1 hmem
        · exact (hq_notin T hmem).2
      · have := filter_exp_snoc (nfaStates nfa).powerset exp S hSP hSe
        omega

/-- `_to_dfa` always terminates: the supplied fuel
`2 ^ |states| + 1` exceeds the size of the powerset worklist. -/
theorem toDfa_isSome (nfa : Nfa) : (toDfa nfa).isSome := by
  rw [toDfa]
  refine dfaLoop_isSome nfa _ _ _ ?_ ?_ ?_ ?_
  · intro S hS
    simp at hS
    rw [hS]
    intro x hx
    simp at hx
    rw [hx, nfaStates]
    exact Finset.mem_insert_self 0 _
  · simp
  · simp
  · calc ((nfaStates nfa).powerset.filter (fun T => T ∉ ([] : List (Finset Nat)))).card
        ≤ (nfaStates nfa).powerset.card := Finset.card_filter_le _ _
      _ = 2 ^ (nfaStates nfa).card := Finset.card_powerset _
      _ < 2 ^ (nfaStates nfa).card + 1 := by omega

theorem dfaLoop_mem (nfa : Nfa) : ∀ (fuel : Nat) (toE exp keys : List (Finset Nat)),
    dfaLoop nfa fuel toE exp = some keys →
    ∀ S, S ∈ toE ∨ S ∈ exp → S ∈ keys := by
  intro fuel
  induction fuel with
  | zero =>
    intro toE exp keys h S hS
    cases toE with
    | nil =>
      rw [dfaLoop] at h
      cases h
      rcases hS with hS | hS
      · cases hS
      · exact hS
    | cons a rest => rw [dfaLoop] at h; cases h
  | succ fuel ih =>
    intro toE exp keys h S hS
    cases toE with
    | nil =>
      rw [dfaLoop] at h
      cases h
      rcases hS with hS | hS
      · cases hS
      · exact hS
    | cons a rest =>
      rw [dfaLoop] at h
      refine ih _ _ _ h S ?_
      rcases hS with hS | hS
      · rcases List.mem_cons.mp hS with hS | hS
        · exact Or.inr (List.mem_append_right _ (by rw [hS]; simp))
        · exact Or.inl (List.mem_append_left _ hS)
      · exact Or.inr (List.mem_append_left _ hS)

/-- Every edge-bearing symbol's destination set of an expanded key is
recorded as a candidate. -/
theorem dests_mem_cands (nfa : Nfa) (S : Finset Nat) (a : Sym)
    (h : dests nfa S a ≠ ∅) :
    dests nfa S a ∈ (nfa.filter (fun e => e.1 ∈ S)).map (fun e => dests nfa S e.2.1) := by
  obtain ⟨x, hx⟩ := Finset.nonempty_iff_ne_empty.mpr h
  rw [dests, List.mem_toFinset, List.mem_map] at hx
  obtain ⟨e, he, -⟩ := hx
  rw [List.mem_filter] at he
  obtain ⟨he, hcond⟩ := he
  have h1 : decide (e.1 ∈ S) = true ∧ decide (e.2.1 = a) = true := by
    simpa using hcond
  rw [List.mem_map]
  refine ⟨e, List.mem_filter.mpr ⟨he, by simpa using h1.1⟩, ?_⟩
  rw [of_decide_eq_true h1.2]

theorem dfaLoop_closure (nfa : Nfa) : ∀ (fuel : Nat) (toE exp keys : List (Finset Nat)),
    dfaLoop nfa fuel toE exp = some keys →
    (∀ S ∈ exp, ∀ a : Sym, dests nfa S a ≠ ∅ →
      dests nfa S a ∈ exp ∨ dests nfa S a ∈ toE) →
    ∀ S ∈ keys, ∀ a : Sym, dests nfa S a ≠ ∅ → dests nfa S a ∈ keys := by
  intro fuel
  induction fuel with
  | zero =>
    intro toE exp keys h hinv
    cases toE with
    | nil =>
      rw [dfaLoop] at h
      cases h
      intro S hS a ha
      rcases hinv S hS a ha with h' | h'
      · exact h'
      · cases h'
    | cons a rest => rw [dfaLoop] at h; cases h
  | succ fuel ih =>
    intro toE exp keys h hinv
    cases toE with
    | nil =>
      rw [dfaLoop] at h
      cases h
      intro S hS a ha
      rcases hinv S hS a ha with h' | h'
      · exact h'
      · cases h'
    | cons S0 rest =>
      rw [dfaLoop] at h
      refine ih _ _ _ h ?_
      intro S hS a ha
      rcases List.mem_append.mp hS with hS | hS
      · rcases hinv S hS a ha with h' | h'
        · exact Or.inl (List.mem_append_left _ h')
        · rcases List.mem_cons.mp h' with h' | h'
          · exact Or.inl (List.mem_append_right _ (by rw [h']; simp))
          · exact Or.inr (List.mem_append_left _ h')
      · have hS0 : S = S0 := by simpa using hS
        subst hS0
        have hc := dests_mem_cands nfa S a ha
        rcases enqueue_covers rest (exp ++ [S]) _ [] _ hc with h' | h' | h'
        · exact Or.inr (List.mem_append_left _ h')
        · exact Or.inl h'
        · exact Or.inr (List.mem_append_right _ h')

/-- The key set `_to_dfa` returns contains the start subset `{0}` and is
closed under the recorded transitions. -/
theorem toDfa_closed (nfa : Nfa) (keys : List (Finset Nat))
    (h : toDfa nfa = some keys) :
    ({0} : Finset Nat) ∈ keys ∧
      ∀ S ∈ keys, ∀ a : Sym, dests nfa S a ≠ ∅ → dests nfa S a ∈ keys := by
  rw [toDfa] at h
  refine ⟨dfaLoop_mem nfa _ _ _ _ h {0} (Or.inl (by simp)), ?_⟩
  exact dfaLoop_closure nfa _ _ _ _ h (by simp)

/-! ## The matcher: totality and the walk it performs -/

/-- The matcher exactly as §4.5 of the spec describes it: walk the DFA
from the current subset, one input symbol per step; a missing transition
(or a subset that is not a DFA key) yields `false` immediately; at end
of input, accept iff the subset intersects the accepting set.  This
definition follows the spec's words and is compared against the code's
`matchWalk`. -/
def specWalk (nfa : Nfa) (keys : List (Finset Nat)) (targets : Finset Nat) :
    Finset Nat → List Char → Bool
  | state, [] => decide (state ∩ targets).Nonempty
  | state, c :: rest =>
    match (if state ∈ keys then tmOf nfa state [c] else none) with
    | none => false
    | some st' => specWalk nfa keys targets st' rest

/-- The whole-match function the spec describes, applied to a parsed
tree: compile to NFA and DFA, then run `specWalk` from `{0}`. -/
def specMatch (t : Tree) (data : List Char) : Bool :=
  match toDfa (toNfa t).2 with
  | none => false
  | some keys => specWalk (toNfa t).2 keys (toNfa t).1 {0} data

theorem matchWalk_eq_specWalk (nfa : Nfa) (keys : List (Finset Nat))
    (targets : Finset Nat)
    (hcl : ∀ S ∈ keys, ∀ a : Sym, dests nfa S a ≠ ∅ → dests nfa S a ∈ keys) :
    ∀ (l : List Char) (S : Finset Nat), S ∈ keys →
    matchWalk nfa keys targets S l = some (specWalk nfa keys targets S l) := by
  intro l
  induction l with
  | nil => intro S _; rfl
  | cons c rest ih =>
    intro S hS
    rw [matchWalk, specWalk, if_pos hS, if_pos hS]
    by_cases hd : dests nfa S [c] = ∅
    · rw [tmOf, if_pos hd]
    · rw [tmOf, if_neg hd]
      exact ih _ (hcl S hS [c] hd)

/-- For a successfully parsed pattern, `match` returns exactly the
boolean computed by the spec's DFA walk — in particular it neither
raises `KeyError` nor fails to terminate. -/
theorem matchRe_ok_spec (p : String) (t : Tree) (s : String) (hp : parse p = .ok t) :
    matchRe p s = .ok (some (specMatch t s.toList)) := by
  obtain ⟨keys, hk⟩ := Option.isSome_iff_exists.mp (toDfa_isSome (toNfa t).2)
  obtain ⟨h0, hcl⟩ := toDfa_closed _ _ hk
  have h1 : matchRe p s = (match toDfa (toNfa t).2 with
      | none => Except.ok none
      | some keys => Except.ok (matchWalk (toNfa t).2 keys (toNfa t).1 {0} s.toList)) := by
    rw [matchRe, hp]
  have h2 : specMatch t s.toList = (match toDfa (toNfa t).2 with
      | none => false
      | some keys => specWalk (toNfa t).2 keys (toNfa t).1 {0} s.toList) := rfl
  rw [h1, h2, hk]
  exact congrArg Except.ok (matchWalk_eq_specWalk _ _ _ hcl s.toList {0} h0)

/-- C1: for every pattern that parses successfully and every input
string, `match` runs the DFA from the start subset `{0}`, consuming one
symbol per step; if the current subset has no transition on the current
symbol it returns false; and when all input is consumed it returns true
iff the final subset intersects the NFA's accepting set — that is,
`match` computes exactly `specWalk` (the walk §4.5 describes), started
at `{0}`, on the whole input. -/
theorem C1_match_is_dfa_walk (p : String) (t : Tree) (s : String)
    (hp : parse p = .ok t) :
    matchRe p s = .ok (some (specMatch t s.toList)) :=
  matchRe_ok_spec p t s hp

/-- Witness for C1 at the concrete pattern `"ab"` and input `"ab"`. -/
theorem C1_witness :
    matchRe "ab" "ab" =
      .ok (some (specMatch (.concat [.literal ['a'], .literal ['b']]) "ab".toList)) :=
  C1_match_is_dfa_walk "ab" (.concat [.literal ['a'], .literal ['b']]) "ab" (by decide)

/-- C8: for every successfully parsed tree the pipeline is total:
`to_nfa` is a total function covering all four node kinds (it is defined
by exhaustive structural recursion here), the subset-construction
worklist of `to_dfa` terminates (its fuel is never exhausted), and the
matcher's DFA lookup never fails — `match` returns a boolean for every
input. -/
theorem C8_pipeline_total (p : String) (t : Tree) (s : String)
    (hp : parse p = .ok t) :
    (toDfa (toNfa t).2).isSome ∧ ∃ b : Bool, matchRe p s = .ok (some b) :=
  ⟨toDfa_isSome _, specMatch t s.toList, matchRe_ok_spec p t s hp⟩

/-- Witness for C8 at the concrete pattern `"a"` and input `"b"`. -/
theorem C8_witness :
    (toDfa (toNfa (Tree.literal ['a'])).2).isSome ∧
      ∃ b : Bool, matchRe "a" "b" = .ok (some b) :=
  C8_pipeline_total "a" (Tree.literal ['a']) "b" (by decide)

/-! ## Language of repeat-free patterns -/

mutual

/-- Trees containing no `kleene` node. -/
def NoKleene : Tree → Prop
  | .alternate cs => NoKleeneList cs
  | .concat cs => NoKleeneList cs
  | .kleene _ => False
  | .literal _ => True

/-- All members of a list are kleene-free. -/
def NoKleeneList : List Tree → Prop
  | [] => True
  | c :: cs => NoKleene c ∧ NoKleeneList cs

end

theorem noKleeneList_iff : ∀ cs : List Tree, NoKleeneList cs ↔ ∀ c ∈ cs, NoKleene c := by
  intro cs
  induction cs with
  | nil => simp [NoKleeneList]
  | cons c cs ih => simp [NoKleeneList, ih]

mutual

/-- The finite set of symbol strings a repeat-free tree denotes: a
literal denotes its one-symbol string, concatenation concatenates
pairwise, alternation unions.  This is the spec side of claim C9 ("the
finite set of exact literal strings described by the pattern"); `kleene`
nodes are outside the claim's scope and are given the empty set. -/
def denote : Tree → Finset (List Sym)
  | .literal v => {[v]}
  | .concat cs => denoteConcat cs
  | .alternate cs => denoteAlt cs
  | .kleene _ => ∅

/-- Denotation of a concatenation of trees. -/
def denoteConcat : List Tree → Finset (List Sym)
  | [] => {[]}
  | c :: cs => Finset.image₂ (· ++ ·) (denote c) (denoteConcat cs)

/-- Denotation of an alternation of trees. -/
def denoteAlt : List Tree → Finset (List Sym)
  | [] => ∅
  | c :: cs => denote c ∪ denoteAlt cs

end

/-- A path through an edge list from one state to another, spelling a
word of symbols. -/
inductive PathIn (g : Nfa) : Nat → Nat → List Sym → Prop where
  | nil (s : Nat) : PathIn g s s []
  | cons {s m e : Nat} {a : Sym} {w : List Sym} :
      (s, a, m) ∈ g → PathIn g m e w → PathIn g s e (a :: w)

/-- The set of NFA states reachable from `S` on a word. -/
def nfaReach (nfa : Nfa) : Finset Nat → List Sym → Finset Nat
  | S, [] => S
  | S, a :: w => nfaReach nfa (dests nfa S a) w

theorem mem_dests (nfa : Nfa) (S : Finset Nat) (a : Sym) (m : Nat) :
    m ∈ dests nfa S a ↔ ∃ s ∈ S, (s, a, m) ∈ nfa := by
  rw [dests, List.mem_toFinset, List.mem_map]
  constructor
  · rintro ⟨e, he, rfl⟩
    rw [List.mem_filter] at he
    obtain ⟨he, hcond⟩ := he
    have h1 : decide (e.1 ∈ S) = true ∧ decide (e.2.1 = a) = true := by simpa using hcond
    refine ⟨e.1, of_decide_eq_true h1.1, ?_⟩
    have : e.2.1 = a := of_decide_eq_true h1.2
    rw [← this]
    exact he
  · rintro ⟨s, hs, hmem⟩
    exact ⟨(s, a, m), List.mem_filter.mpr ⟨hmem, by simp [hs]⟩, rfl⟩

theorem dests_empty (nfa : Nfa) (a : Sym) : dests nfa ∅ a = ∅ := by
  rw [Finset.eq_empty_iff_forall_not_mem]
  intro m hm
  obtain ⟨s, hs, -⟩ := (mem_dests nfa ∅ a m).mp hm
  cases hs

theorem nfaReach_empty (nfa : Nfa) : ∀ w : List Sym, nfaReach nfa ∅ w = ∅ := by
  intro w
  induction w with
  | nil => rfl
  | cons a w ih => rw [nfaReach, dests_empty, ih]

theorem mem_nfaReach (nfa : Nfa) : ∀ (w : List Sym) (S : Finset Nat) (x : Nat),
    x ∈ nfaReach nfa S w ↔ ∃ s ∈ S, PathIn nfa s x w := by
  intro w
  induction w with
  | nil =>
    intro S x
    rw [nfaReach]
    constructor
    · intro hx
      exact ⟨x, hx, PathIn.nil x⟩
    · rintro ⟨s, hs, hp⟩
      cases hp
      exact hs
  | cons a w ih =>
    intro S x
    rw [nfaReach, ih]
    constructor
    · rintro ⟨m, hm, hp⟩
      obtain ⟨s, hs, he⟩ := (mem_dests nfa S a m).mp hm
      exact ⟨s, hs, PathIn.cons he hp⟩
    · rintro ⟨s, hs, hp⟩
      cases hp with
      | cons he hp' =>
        exact ⟨_, (mem_dests nfa S a _).mpr ⟨s, hs, he⟩, hp'⟩

theorem pathIn_append_left (g g' : Nfa) : ∀ {s x : Nat} {w : List Sym},
    PathIn g s x w → PathIn (g ++ g') s x w := by
  intro s x w hp
  induction hp with
  | nil s => exact PathIn.nil s
  | cons he _ ih => exact PathIn.cons (List.mem_append_left _ he) ih

theorem pathIn_append_right (g g' : Nfa) : ∀ {s x : Nat} {w : List Sym},
    PathIn g' s x w → PathIn (g ++ g') s x w := by
  intro s x w hp
  induction hp with
  | nil s => exact PathIn.nil s
  | cons he _ ih => exact PathIn.cons (List.mem_append_right _ he) ih

theorem pathIn_trans (g : Nfa) : ∀ {s m x : Nat} {w1 w2 : List Sym},
    PathIn g s m w1 → PathIn g m x w2 → PathIn g s x (w1 ++ w2) := by
  intro s m x w1 w2 h1 h2
  induction h1 with
  | nil _ => exact h2
  | cons he _ ih => exact PathIn.cons he (ih h2)

/-- If every edge of `G` leaving a `Q`-state belongs to `gsub` and stays
in `Q`, then a `G`-path from a `Q`-state is a `gsub`-path. -/
theorem pathIn_restrict (G gsub : Nfa) (Q : Nat → Prop)
    (hQ : ∀ e ∈ G, Q e.1 → e ∈ gsub ∧ Q e.2.2) :
    ∀ {y x : Nat} {w : List Sym}, Q y → PathIn G y x w → PathIn gsub y x w := by
  intro y x w hy hp
  induction hp with
  | nil s => exact PathIn.nil s
  | @cons s m e a w' he hp' ih =>
    obtain ⟨hmem, hQm⟩ := hQ (s, a, m) he hy
    exact PathIn.cons hmem (ih hQm)

/-- A path from a state with no outgoing edges is empty. -/
theorem pathIn_stuck (g : Nfa) {y x : Nat} {w : List Sym}
    (hy : ∀ e ∈ g, e.1 ≠ y) (hp : PathIn g y x w) : x = y ∧ w = [] := by
  cases hp with
  | nil _ => exact ⟨rfl, rfl⟩
  | cons he _ => exact absurd rfl (hy _ he)

theorem pathIn_endpoint (g : Nfa) (R : Nat → Prop) (hdest : ∀ e ∈ g, R e.2.2) :
    ∀ {y x : Nat} {w : List Sym}, PathIn g y x w → R y → R x := by
  intro y x w hp
  induction hp with
  | nil s => exact id
  | @cons s m e a w' he hp' ih => exact fun _ => ih (hdest (s, a, m) he)

theorem mem_sortedFin {α : Type} [LinearOrder α] (s : Finset α) (x : α) :
    x ∈ sortedFin s ↔ x ∈ s := by
  rw [sortedFin_eq_sort]
  exact Finset.mem_sort (· ≤ ·)

theorem mem_litEdges (starts : Finset Nat) (v : Sym) (k : Nat) (e : Nat × Sym × Nat) :
    e ∈ litEdges starts v k ↔ ∃ s ∈ starts, e = (s, v, k) := by
  rw [litEdges, List.mem_map]
  constructor
  · rintro ⟨s, hs, rfl⟩
    exact ⟨s, (mem_sortedFin starts s).mp hs, rfl⟩
  · rintro ⟨s, hs, rfl⟩
    exact ⟨s, (mem_sortedFin starts s).mpr hs, rfl⟩

/-- A path through two juxtaposed fragments splits at a crossing state:
all region-1 states lie below `B`, all region-2 destinations at or above
`B`. -/
theorem path_split (g1 g2 : Nfa) (B : Nat)
    (hg1 : ∀ e ∈ g1, e.1 < B ∧ e.2.2 < B)
    (hg2 : ∀ e ∈ g2, B ≤ e.2.2) :
    ∀ {s x : Nat} {w : List Sym}, PathIn (g1 ++ g2) s x w → s < B →
    ∃ m w1 w2, w = w1 ++ w2 ∧ PathIn g1 s m w1 ∧ PathIn g2 m x w2 ∧ m < B := by
  intro s x w hp
  induction hp with
  | nil y => exact fun hy => ⟨y, [], [], rfl, PathIn.nil y, PathIn.nil y, hy⟩
  | @cons s m0 e a w' he hp' ih =>
    intro hs
    rcases List.mem_append.mp he with he1 | he2
    · obtain ⟨m, w1, w2, rfl, hpa, hpb, hm⟩ := ih (hg1 _ he1).2
      exact ⟨m, a :: w1, w2, rfl, PathIn.cons he1 hpa, hpb, hm⟩
    · have hrest : PathIn g2 m0 e w' := by
        refine pathIn_restrict (g1 ++ g2) g2 (fun y => B ≤ y) ?_ (hg2 _ he2) hp'
        intro e' he' hQ
        rcases List.mem_append.mp he' with h' | h'
        · exact absurd hQ (by have := (hg1 _ h').1; omega)
        · exact ⟨h', hg2 _ h'⟩
      exact ⟨s, [], a :: w', rfl, PathIn.nil s, PathIn.cons he2 hrest, hs⟩

/-- Well-formedness and language correctness of the fragment `_to_nfa`
builds for a kleene-free tree: the counter only grows, every edge runs
from an old start or a fresh state to a fresh state, the end states are
old starts or fresh states, and the fragment's paths from a start to an
end spell exactly the denoted words. -/
def NfaOK (t : Tree) : Prop :=
  ∀ (starts : Finset Nat) (n : Nat), (∀ s ∈ starts, s < n) →
  ∀ (ends : Finset Nat) (g : Nfa) (n' : Nat), toNfaAux t starts n = (ends, g, n') →
    (n ≤ n' ∧
      (∀ e ∈ g, (e.1 ∈ starts ∨ (n ≤ e.1 ∧ e.1 < n')) ∧ n ≤ e.2.2 ∧ e.2.2 < n') ∧
      (∀ x ∈ ends, x ∈ starts ∨ (n ≤ x ∧ x < n'))) ∧
    (∀ s ∈ starts, ∀ x ∈ ends, ∀ w, PathIn g s x w → w ∈ denote t) ∧
    (∀ w ∈ denote t, ∀ s ∈ starts, ∃ x ∈ ends, PathIn g s x w)

/-- `NfaOK` for the `concat` loop. -/
def NfaOKConcat (cs : List Tree) : Prop :=
  ∀ (starts : Finset Nat) (n : Nat), (∀ s ∈ starts, s < n) →
  ∀ (ends : Finset Nat) (g : Nfa) (n' : Nat), toNfaConcat cs starts n = (ends, g, n') →
    (n ≤ n' ∧
      (∀ e ∈ g, (e.1 ∈ starts ∨ (n ≤ e.1 ∧ e.1 < n')) ∧ n ≤ e.2.2 ∧ e.2.2 < n') ∧
      (∀ x ∈ ends, x ∈ starts ∨ (n ≤ x ∧ x < n'))) ∧
    (∀ s ∈ starts, ∀ x ∈ ends, ∀ w, PathIn g s x w → w ∈ denoteConcat cs) ∧
    (∀ w ∈ denoteConcat cs, ∀ s ∈ starts, ∃ x ∈ ends, PathIn g s x w)

/-- `NfaOK` for the `alternate` loop. -/
def NfaOKAlt (cs : List Tree) : Prop :=
  ∀ (starts : Finset Nat) (n : Nat), (∀ s ∈ starts, s < n) →
  ∀ (ends : Finset Nat) (g : Nfa) (n' : Nat), toNfaAlt cs starts n = (ends, g, n') →
    (n ≤ n' ∧
      (∀ e ∈ g, (e.1 ∈ starts ∨ (n ≤ e.1 ∧ e.1 < n')) ∧ n ≤ e.2.2 ∧ e.2.2 < n') ∧
      (∀ x ∈ ends, x ∈ starts ∨ (n ≤ x ∧ x < n'))) ∧
    (∀ s ∈ starts, ∀ x ∈ ends, ∀ w, PathIn g s x w → w ∈ denoteAlt cs) ∧
    (∀ w ∈ denoteAlt cs, ∀ s ∈ starts, ∃ x ∈ ends, PathIn g s x w)

theorem nfaOK_literal (v : Sym) : NfaOK (.literal v) := by
  intro starts n hst ends g n' heq
  have heq' : ({n}, litEdges starts v n, n + 1) = (ends, g, n') := heq
  obtain ⟨rfl, rfl, rfl⟩ : ({n} : Finset Nat) = ends ∧ litEdges starts v n = g ∧ n + 1 = n' := by
    simpa using heq'
  refine ⟨⟨by omega, ?_, ?_⟩, ?_, ?_⟩
  · intro e he
    obtain ⟨s, hs, rfl⟩ := (mem_litEdges starts v n e).mp he
    exact ⟨Or.inl hs, le_rfl, Nat.lt_succ_self n⟩
  · intro x hx
    have hxn : x = n := Finset.mem_singleton.mp hx
    rw [hxn]
    exact Or.inr ⟨le_rfl, Nat.lt_succ_self n⟩
  · intro s hs x hx w hp
    cases hp with
    | nil _ =>
      have h1 := Finset.mem_singleton.mp hx
      have h2 := hst s hs
      exact absurd h2 (by rw [h1]; exact lt_irrefl n)
    | @cons _ m _ a w' he hp' =>
      obtain ⟨s', -, heq2⟩ := (mem_litEdges starts v n _).mp he
      obtain ⟨-, hav, hmn⟩ : s = s' ∧ a = v ∧ m = n := by simpa using heq2
      rw [hmn] at hp'
      have hstuck : ∀ e ∈ litEdges starts v n, e.1 ≠ n := by
        intro e he'
        obtain ⟨s2, hs2, rfl⟩ := (mem_litEdges starts v n e).mp he'
        have := hst s2 hs2
        omega
      obtain ⟨-, hw'⟩ := pathIn_stuck _ hstuck hp'
      rw [hav, hw']
      simp [denote]
  · intro w hw s hs
    have hwv : w = [v] := by simpa [denote] using hw
    subst hwv
    refine ⟨n, Finset.mem_singleton_self n, ?_⟩
    exact PathIn.cons ((mem_litEdges starts v n (s, v, n)).mpr ⟨s, hs, rfl⟩) (PathIn.nil n)

/-- A path's first state is its last state or the source of some edge. -/
theorem pathIn_src (g : Nfa) {y x : Nat} {w : List Sym} (hp : PathIn g y x w) :
    y = x ∨ ∃ e ∈ g, e.1 = y := by
  cases hp with
  | nil _ => exact Or.inl rfl
  | @cons _ m _ a w' he _ => exact Or.inr ⟨(y, a, m), he, rfl⟩

theorem nfaOK_concat : ∀ cs : List Tree, (∀ c ∈ cs, NfaOK c) → NfaOKConcat cs := by
  intro cs
  induction cs with
  | nil =>
    intro _ starts n hst ends g n' heq
    obtain ⟨rfl, rfl, rfl⟩ : starts = ends ∧ ([] : Nfa) = g ∧ n = n' := by
      simpa using (show (starts, ([] : Nfa), n) = (ends, g, n') from heq)
    refine ⟨⟨le_rfl, ?_, ?_⟩, ?_, ?_⟩
    · intro e he; cases he
    · intro x hx; exact Or.inl hx
    · intro s hs x hx w hp
      cases hp with
      | nil _ => simp [denoteConcat]
      | cons he _ => cases he
    · intro w hw s hs
      have hwn : w = [] := by simpa [denoteConcat] using hw
      rw [hwn]
      exact ⟨s, hs, PathIn.nil s⟩
  | cons c cs ih =>
    intro hOK starts n hst ends g n' heq
    have hc : NfaOK c := hOK c (List.mem_cons_self c cs)
    have hcs : NfaOKConcat cs := ih (fun x hx => hOK x (List.mem_cons_of_mem c hx))
    rcases h1 : toNfaAux c starts n with ⟨ends1, g1, n1⟩
    rcases h2 : toNfaConcat cs ends1 n1 with ⟨ends2, g2, n2⟩
    have heq' : toNfaConcat (c :: cs) starts n = (ends2, g1 ++ g2, n2) := by
      simp [toNfaConcat, h1, h2]
    rw [heq'] at heq
    obtain ⟨rfl, rfl, rfl⟩ : ends2 = ends ∧ g1 ++ g2 = g ∧ n2 = n' := by simpa using heq
    obtain ⟨⟨hn1, hedge1, hend1⟩, hsound1, hcomp1⟩ := hc starts n hst ends1 g1 n1 h1
    have hst2 : ∀ x ∈ ends1, x < n1 := by
      intro x hx
      rcases hend1 x hx with h | h
      · exact lt_of_lt_of_le (hst x h) hn1
      · exact h.2
    obtain ⟨⟨hn2, hedge2, hend2⟩, hsound2, hcomp2⟩ := hcs ends1 n1 hst2 ends2 g2 n2 h2
    refine ⟨⟨le_trans hn1 hn2, ?_, ?_⟩, ?_, ?_⟩
    · intro e he
      rcases List.mem_append.mp he with he | he
      · obtain ⟨hsrc, hd1, hd2⟩ := hedge1 e he
        refine ⟨?_, hd1, lt_of_lt_of_le hd2 hn2⟩
        rcases hsrc with h | h
        · exact Or.inl h
        · exact Or.inr ⟨h.1, lt_of_lt_of_le h.2 hn2⟩
      · obtain ⟨hsrc, hd1, hd2⟩ := hedge2 e he
        refine ⟨?_, le_trans hn1 hd1, hd2⟩
        rcases hsrc with h | h
        · rcases hend1 _ h with h' | h'
          · exact Or.inl h'
          · exact Or.inr ⟨h'.1, lt_of_lt_of_le h'.2 hn2⟩
        · exact Or.inr ⟨le_trans hn1 h.1, h.2⟩
    · intro x hx
      rcases hend2 x hx with h | h
      · rcases hend1 x h with h' | h'
        · exact Or.inl h'
        · exact Or.inr ⟨h'.1, lt_of_lt_of_le h'.2 hn2⟩
      · exact Or.inr ⟨le_trans hn1 h.1, h.2⟩
    · intro s hs x hx w hp
      obtain ⟨m, w1, w2, rfl, hpa, hpb, hmB⟩ := path_split g1 g2 n1
        (fun e he => ⟨by
            rcases (hedge1 e he).1 with h | h
            · exact lt_of_lt_of_le (hst _ h) hn1
            · exact h.2,
          (hedge1 e he).2.2⟩)
        (fun e he => (hedge2 e he).2.1) hp (lt_of_lt_of_le (hst s hs) hn1)
      have hm1 : m ∈ ends1 := by
        rcases pathIn_src g2 hpb with heq2 | ⟨e, he, hesrc⟩
        · rcases hend2 x hx with h | h
          · rw [heq2]; exact h
          · exact absurd h.1 (by rw [← heq2]; omega)
        · rcases (hedge2 e he).1 with h | h
          · rw [← hesrc]; exact h
          · exact absurd h.1 (by rw [hesrc]; omega)
      have hw1 := hsound1 s hs m hm1 w1 hpa
      have hw2 := hsound2 m hm1 x hx w2 hpb
      exact Finset.mem_image₂.mpr ⟨w1, hw1, w2, hw2, rfl⟩
    · intro w hw s hs
      obtain ⟨w1, hw1, w2, hw2, rfl⟩ := Finset.mem_image₂.mp hw
      obtain ⟨m, hm, hp1⟩ := hcomp1 w1 hw1 s hs
      obtain ⟨x, hx, hp2⟩ := hcomp2 w2 hw2 m hm
      exact ⟨x, hx, pathIn_trans _ (pathIn_append_left g1 g2 hp1)
        (pathIn_append_right g1 g2 hp2)⟩

theorem nfaOK_alt : ∀ cs : List Tree, (∀ c ∈ cs, NfaOK c) → NfaOKAlt cs := by
  intro cs
  induction cs with
  | nil =>
    intro _ starts n hst ends g n' heq
    obtain ⟨rfl, rfl, rfl⟩ : (∅ : Finset Nat) = ends ∧ ([] : Nfa) = g ∧ n = n' := by
      simpa using (show ((∅ : Finset Nat), ([] : Nfa), n) = (ends, g, n') from heq)
    refine ⟨⟨le_rfl, ?_, ?_⟩, ?_, ?_⟩
    · intro e he; cases he
    · intro x hx; cases hx
    · intro s hs x hx w hp; cases hx
    · intro w hw s hs; cases hw
  | cons c cs ih =>
    intro hOK starts n hst ends g n' heq
    have hc : NfaOK c := hOK c (List.mem_cons_self c cs)
    have hcs : NfaOKAlt cs := ih (fun x hx => hOK x (List.mem_cons_of_mem c hx))
    rcases h1 : toNfaAux c starts n with ⟨ends1, g1, n1⟩
    rcases h2 : toNfaAlt cs starts n1 with ⟨ends2, g2, n2⟩
    have heq' : toNfaAlt (c :: cs) starts n = (ends1 ∪ ends2, g1 ++ g2, n2) := by
      simp [toNfaAlt, h1, h2]
    rw [heq'] at heq
    obtain ⟨rfl, rfl, rfl⟩ : ends1 ∪ ends2 = ends ∧ g1 ++ g2 = g ∧ n2 = n' := by simpa using heq
    obtain ⟨⟨hn1, hedge1, hend1⟩, hsound1, hcomp1⟩ := hc starts n hst ends1 g1 n1 h1
    have hst2 : ∀ s ∈ starts, s < n1 := fun s hs => lt_of_lt_of_le (hst s hs) hn1
    obtain ⟨⟨hn2, hedge2, hend2⟩, hsound2, hcomp2⟩ := hcs starts n1 hst2 ends2 g2 n2 h2
    refine ⟨⟨le_trans hn1 hn2, ?_, ?_⟩, ?_, ?_⟩
    · intro e he
      rcases List.mem_append.mp he with he | he
      · obtain ⟨hsrc, hd1, hd2⟩ := hedge1 e he
        refine ⟨?_, hd1, lt_of_lt_of_le hd2 hn2⟩
        rcases hsrc with h | h
        · exact Or.inl h
        · exact Or.inr ⟨h.1, lt_of_lt_of_le h.2 hn2⟩
      · obtain ⟨hsrc, hd1, hd2⟩ := hedge2 e he
        refine ⟨?_, le_trans hn1 hd1, hd2⟩
        rcases hsrc with h | h
        · exact Or.inl h
        · exact Or.inr ⟨le_trans hn1 h.1, h.2⟩
    · intro x hx
      rcases Finset.mem_union.mp hx with h | h
      · rcases hend1 x h with h' | h'
        · exact Or.inl h'
        · exact Or.inr ⟨h'.1, lt_of_lt_of_le h'.2 hn2⟩
      · rcases hend2 x h with h' | h'
        · exact Or.inl h'
        · exact Or.inr ⟨le_trans hn1 h'.1, h'.2⟩
    · intro s hs x hx w hp
      cases hp with
      | nil _ =>
        rcases Finset.mem_union.mp hx with h | h
        · exact Finset.mem_union_left _ (hsound1 s hs s h [] (PathIn.nil s))
        · exact Finset.mem_union_right _ (hsound2 s hs s h [] (PathIn.nil s))
      | @cons _ m0 _ a w' he hp' =>
        rcases List.mem_append.mp he with he1 | he2
        · have hm0 : n ≤ m0 ∧ m0 < n1 := ⟨(hedge1 _ he1).2.1, (hedge1 _ he1).2.2⟩
          have hrest : PathIn g1 m0 x w' := by
            refine pathIn_restrict (g1 ++ g2) g1 (fun y => n ≤ y ∧ y < n1) ?_ hm0 hp'
            intro e' he' hQ
            rcases List.mem_append.mp he' with h' | h'
            · exact ⟨h', (hedge1 e' h').2.1, (hedge1 e' h').2.2⟩
            · rcases (hedge2 e' h').1 with h'' | h''
              · exact absurd hQ.1 (by have := hst _ h''; omega)
              · exact absurd hQ.2 (by omega)
          have hxI : n ≤ x ∧ x < n1 :=
            pathIn_endpoint g1 (fun y => n ≤ y ∧ y < n1)
              (fun e' he' => ⟨(hedge1 e' he').2.1, (hedge1 e' he').2.2⟩) hrest hm0
          have hx1 : x ∈ ends1 := by
            rcases Finset.mem_union.mp hx with h | h
            · exact h
            · rcases hend2 x h with h' | h'
              · exact absurd hxI.1 (by have := hst _ h'; omega)
              · exact absurd hxI.2 (by have := h'.1; omega)
          exact Finset.mem_union_left _
            (hsound1 s hs x hx1 (a :: w') (PathIn.cons he1 hrest))
        · have hm0 : n1 ≤ m0 := (hedge2 _ he2).2.1
          have hrest : PathIn g2 m0 x w' := by
            refine pathIn_restrict (g1 ++ g2) g2 (fun y => n1 ≤ y) ?_ hm0 hp'
            intro e' he' hQ
            rcases List.mem_append.mp he' with h' | h'
            · rcases (hedge1 e' h').1 with h'' | h''
              · exact absurd hQ (by have := hst _ h''; omega)
              · exact absurd hQ (by have := h''.2; omega)
            · exact ⟨h', (hedge2 e' h').2.1⟩
          have hxI : n1 ≤ x :=
            pathIn_endpoint g2 (fun y => n1 ≤ y)
              (fun e' he' => (hedge2 e' he').2.1) hrest hm0
          have hx2 : x ∈ ends2 := by
            rcases Finset.mem_union.mp hx with h | h
            · rcases hend1 x h with h' | h'
              · exact absurd hxI (by have := hst _ h'; omega)
              · exact absurd hxI (by have := h'.2; omega)
            · exact h
          exact Finset.mem_union_right _
            (hsound2 s hs x hx2 (a :: w') (PathIn.cons he2 hrest))
    · intro w hw s hs
      rcases Finset.mem_union.mp hw with h | h
      · obtain ⟨x, hx, hp1⟩ := hcomp1 w h s hs
        exact ⟨x, Finset.mem_union_left _ hx, pathIn_append_left g1 g2 hp1⟩
      · obtain ⟨x, hx, hp2⟩ := hcomp2 w h s hs
        exact ⟨x, Finset.mem_union_right _ hx, pathIn_append_right g1 g2 hp2⟩

theorem nfaOK_of_noKleene : ∀ t : Tree, NoKleene t → NfaOK t := by
  intro t
  induction t using Tree.myInd with
  | halt cs ih =>
    intro hnk
    have h := nfaOK_alt cs (fun c hc => ih c hc ((noKleeneList_iff cs).mp hnk c hc))
    intro starts n hst ends g n' heq
    exact h starts n hst ends g n' heq
  | hcat cs ih =>
    intro hnk
    have h := nfaOK_concat cs (fun c hc => ih c hc ((noKleeneList_iff cs).mp hnk c hc))
    intro starts n hst ends g n' heq
    exact h starts n hst ends g n' heq
  | hkle c ih => intro hnk; exact hnk.elim
  | hlit v => intro _; exact nfaOK_literal v

theorem specWalk_eq_reach (nfa : Nfa) (keys : List (Finset Nat)) (targets : Finset Nat)
    (hcl : ∀ S ∈ keys, ∀ a : Sym, dests nfa S a ≠ ∅ → dests nfa S a ∈ keys) :
    ∀ (l : List Char) (S : Finset Nat), S ∈ keys →
    specWalk nfa keys targets S l =
      decide ((nfaReach nfa S (l.map (fun c => ([c] : Sym))) ∩ targets).Nonempty) := by
  intro l
  induction l with
  | nil => intro S _; rfl
  | cons c rest ih =>
    intro S hS
    rw [specWalk, if_pos hS]
    by_cases hd : dests nfa S [c] = ∅
    · rw [tmOf, if_pos hd]
      show false = _
      rw [List.map_cons, nfaReach, hd, nfaReach_empty]
      simp
    · rw [tmOf, if_neg hd]
      show specWalk nfa keys targets (dests nfa S [c]) rest = _
      rw [ih _ (hcl S hS [c] hd), List.map_cons, nfaReach]

/-- For a kleene-free tree, the matcher accepts exactly the words the
tree denotes. -/
theorem specMatch_denote (t : Tree) (hnk : NoKleene t) (l : List Char) :
    specMatch t l = true ↔ (l.map (fun c => ([c] : Sym))) ∈ denote t := by
  obtain ⟨keys, hk⟩ := Option.isSome_iff_exists.mp (toDfa_isSome (toNfa t).2)
  obtain ⟨h0, hcl⟩ := toDfa_closed _ _ hk
  have hsm : specMatch t l = specWalk (toNfa t).2 keys (toNfa t).1 {0} l := by
    rw [specMatch, hk]
  rw [hsm, specWalk_eq_reach _ _ _ hcl l {0} h0, decide_eq_true_iff]
  rcases haux : toNfaAux t {0} 1 with ⟨ends, g, n'⟩
  have htn : toNfa t = (ends, g) := by rw [toNfa, haux]
  obtain ⟨-, hsound, hcomp⟩ :=
    nfaOK_of_noKleene t hnk {0} 1 (by simp) ends g n' haux
  rw [htn]
  constructor
  · rintro ⟨x, hx⟩
    rw [Finset.mem_inter] at hx
    obtain ⟨hxr, hxe⟩ := hx
    obtain ⟨s, hs, hp⟩ := (mem_nfaReach _ _ _ _).mp hxr
    have hs0 : s = 0 := Finset.mem_singleton.mp hs
    rw [hs0] at hp
    exact hsound 0 (Finset.mem_singleton_self 0) x hxe _ hp
  · intro hw
    obtain ⟨x, hx, hp⟩ := hcomp _ hw 0 (Finset.mem_singleton_self 0)
    refine ⟨x, Finset.mem_inter.mpr ⟨?_, hx⟩⟩
    exact (mem_nfaReach _ _ _ _).mpr ⟨0, Finset.mem_singleton_self 0, hp⟩

theorem mem_spliceAlts_cases : ∀ (cs : List Tree) (x : Tree), x ∈ spliceAlts cs →
    x ∈ cs ∨ ∃ gs, Tree.alternate gs ∈ cs ∧ x ∈ gs := by
  intro cs
  induction cs with
  | nil => intro x hx; cases hx
  | cons c cs ih =>
    intro x hx
    cases c with
    | alternate gs =>
      rw [spliceAlts] at hx
      rcases List.mem_append.mp hx with h | h
      · exact Or.inr ⟨gs, List.mem_cons_self _ _, h⟩
      · rcases ih x h with h' | ⟨gs', hg, hxg⟩
        · exact Or.inl (List.mem_cons_of_mem _ h')
        · exact Or.inr ⟨gs', List.mem_cons_of_mem _ hg, hxg⟩
    | concat gs =>
      have hx' : x ∈ Tree.concat gs :: spliceAlts cs := hx
      rcases List.mem_cons.mp hx' with h | h
      · exact Or.inl (by rw [h]; exact List.mem_cons_self _ _)
      · rcases ih x h with h' | ⟨gs', hg, hxg⟩
        · exact Or.inl (List.mem_cons_of_mem _ h')
        · exact Or.inr ⟨gs', List.mem_cons_of_mem _ hg, hxg⟩
    | kleene g =>
      have hx' : x ∈ Tree.kleene g :: spliceAlts cs := hx
      rcases List.mem_cons.mp hx' with h | h
      · exact Or.inl (by rw [h]; exact List.mem_cons_self _ _)
      · rcases ih x h with h' | ⟨gs', hg, hxg⟩
        · exact Or.inl (List.mem_cons_of_mem _ h')
        · exact Or.inr ⟨gs', List.mem_cons_of_mem _ hg, hxg⟩
    | literal v =>
      have hx' : x ∈ Tree.literal v :: spliceAlts cs := hx
      rcases List.mem_cons.mp hx' with h | h
      · exact Or.inl (by rw [h]; exact List.mem_cons_self _ _)
      · rcases ih x h with h' | ⟨gs', hg, hxg⟩
        · exact Or.inl (List.mem_cons_of_mem _ h')
        · exact Or.inr ⟨gs', List.mem_cons_of_mem _ hg, hxg⟩

theorem mem_spliceConcats_cases : ∀ (cs : List Tree) (x : Tree), x ∈ spliceConcats cs →
    x ∈ cs ∨ ∃ gs, Tree.concat gs ∈ cs ∧ x ∈ gs := by
  intro cs
  induction cs with
  | nil => intro x hx; cases hx
  | cons c cs ih =>
    intro x hx
    cases c with
    | concat gs =>
      rw [spliceConcats] at hx
      rcases List.mem_append.mp hx with h | h
      · exact Or.inr ⟨gs, List.mem_cons_self _ _, h⟩
      · rcases ih x h with h' | ⟨gs', hg, hxg⟩
        · exact Or.inl (List.mem_cons_of_mem _ h')
        · exact Or.inr ⟨gs', List.mem_cons_of_mem _ hg, hxg⟩
    | alternate gs =>
      have hx' : x ∈ Tree.alternate gs :: spliceConcats cs := hx
      rcases List.mem_cons.mp hx' with h | h
      · exact Or.inl (by rw [h]; exact List.mem_cons_self _ _)
      · rcases ih x h with h' | ⟨gs', hg, hxg⟩
        · exact Or.inl (List.mem_cons_of_mem _ h')
        · exact Or.inr ⟨gs', List.mem_cons_of_mem _ hg, hxg⟩
    | kleene g =>
      have hx' : x ∈ Tree.kleene g :: spliceConcats cs := hx
      rcases List.mem_cons.mp hx' with h | h
      · exact Or.inl (by rw [h]; exact List.mem_cons_self _ _)
      · rcases ih x h with h' | ⟨gs', hg, hxg⟩
        · exact Or.inl (List.mem_cons_of_mem _ h')
        · exact Or.inr ⟨gs', List.mem_cons_of_mem _ hg, hxg⟩
    | literal v =>
      have hx' : x ∈ Tree.literal v :: spliceConcats cs := hx
      rcases List.mem_cons.mp hx' with h | h
      · exact Or.inl (by rw [h]; exact List.mem_cons_self _ _)
      · rcases ih x h with h' | ⟨gs', hg, hxg⟩
        · exact Or.inl (List.mem_cons_of_mem _ h')
        · exact Or.inr ⟨gs', List.mem_cons_of_mem _ hg, hxg⟩

theorem noKleene_simplify : ∀ t : Tree, NoKleene t → NoKleene (simplify t) := by
  intro t
  induction t using Tree.myInd with
  | halt cs ih =>
    intro hnk
    have hmem : ∀ x ∈ spliceAlts (simplifyList cs), NoKleene x := by
      intro x hx
      have hsl : ∀ y ∈ simplifyList cs, NoKleene y := by
        intro y hy
        obtain ⟨c, hc, rfl⟩ := mem_simplifyList cs y hy
        exact ih c hc ((noKleeneList_iff cs).mp hnk c hc)
      rcases mem_spliceAlts_cases _ x hx with h | ⟨gs, hg, hxg⟩
      · exact hsl x h
      · exact (noKleeneList_iff gs).mp (hsl _ hg) x hxg
    show NoKleene (simpAltPost (spliceAlts (simplifyList cs)))
    rw [simpAltPost]
    by_cases hnil : spliceAlts (simplifyList cs) = []
    · rw [if_pos hnil]; trivial
    · rw [if_neg hnil]
      have hd : ∀ x ∈ dedupAcc ((spliceAlts (simplifyList cs)).any isKleene) []
          (spliceAlts (simplifyList cs)), NoKleene x := by
        intro x hx
        rcases mem_dedupAcc _ _ [] x hx with h | h
        · cases h
        · exact hmem x h
      rcases hdd : dedupAcc ((spliceAlts (simplifyList cs)).any isKleene) []
          (spliceAlts (simplifyList cs)) with _ | ⟨a, rest⟩
      · trivial
      · rw [hdd] at hd
        cases rest with
        | nil => exact hd a (List.mem_cons_self _ _)
        | cons b brest =>
          exact (noKleeneList_iff _).mpr hd
  | hcat cs ih =>
    intro hnk
    have hmem : ∀ x ∈ spliceConcats (simplifyList cs), NoKleene x := by
      intro x hx
      have hsl : ∀ y ∈ simplifyList cs, NoKleene y := by
        intro y hy
        obtain ⟨c, hc, rfl⟩ := mem_simplifyList cs y hy
        exact ih c hc ((noKleeneList_iff cs).mp hnk c hc)
      rcases mem_spliceConcats_cases _ x hx with h | ⟨gs, hg, hxg⟩
      · exact hsl x h
      · exact (noKleeneList_iff gs).mp (hsl _ hg) x hxg
    show NoKleene (simpCatPost (spliceConcats (simplifyList cs)))
    rcases hsc : spliceConcats (simplifyList cs) with _ | ⟨a, rest⟩
    · trivial
    · rw [hsc] at hmem
      cases rest with
      | nil => exact hmem a (List.mem_cons_self _ _)
      | cons b brest => exact (noKleeneList_iff _).mpr hmem
  | hkle c ih => intro hnk; exact hnk.elim
  | hlit v => intro _; trivial

theorem noKleene_finishTree (alts : List (List Tree)) (parts : List Tree)
    (halts : ∀ ps ∈ alts, ∀ t ∈ ps, NoKleene t)
    (hparts : ∀ t ∈ parts, NoKleene t) : NoKleene (finishTree alts parts) := by
  rw [finishTree]
  refine (noKleeneList_iff _).mpr ?_
  intro x hx
  rw [List.mem_map] at hx
  obtain ⟨ps, hps, rfl⟩ := hx
  rcases List.mem_append.mp hps with h | h
  · exact (noKleeneList_iff ps).mpr (halts ps h)
  · have : ps = parts := by simpa using h
    rw [this]
    exact (noKleeneList_iff parts).mpr hparts

/-- The characters claim C9 excludes from literal-only patterns: repeat
operators, classes, `.`, escapes, and the `^`/`$` pseudo-tokens. -/
def nonLiteralChars : List Char := ['*', '+', '?', '{', '.', '[', '\\', '^', '$']

/-- A pattern built only from literal characters, grouping `(`/`)`,
concatenation and alternation `|`. -/
def LiteralPattern (p : String) : Prop := ∀ c ∈ p.toList, c ∉ nonLiteralChars

theorem parseLoop_noKleene : ∀ (fuel : Nat) (alts : List (List Tree)) (parts : List Tree)
    (data : List Char) (tree : Tree) (rem : List Char),
    (∀ ps ∈ alts, ∀ t ∈ ps, NoKleene t) → (∀ t ∈ parts, NoKleene t) →
    (∀ c ∈ data, c ∉ nonLiteralChars) →
    parseLoop fuel alts parts data = .ok (tree, rem) →
    NoKleene tree ∧ ∀ c ∈ rem, c ∉ nonLiteralChars := by
  intro fuel
  induction fuel with
  | zero =>
    intro alts parts data tree rem _ _ _ h
    exact Except.noConfusion h
  | succ fuel ih =>
    intro alts parts data tree rem halts hparts hdata h
    cases data with
    | nil =>
      rw [parseLoop] at h
      obtain ⟨rfl, rfl⟩ : finishTree alts parts = tree ∧ ([] : List Char) = rem := by
        simpa using h
      exact ⟨noKleene_finishTree alts parts halts hparts, by simp⟩
    | cons c rest =>
      rw [parseLoop] at h
      have hc := hdata c (List.mem_cons_self c rest)
      have hrest : ∀ c' ∈ rest, c' ∉ nonLiteralChars :=
        fun c' h' => hdata c' (List.mem_cons_of_mem c h')
      by_cases h1 : c = '('
      · rw [if_pos h1] at h
        cases hrec : parseLoop fuel [] [] rest with
        | error e => rw [hrec] at h; cases h
        | ok pr =>
          rcases pr with ⟨part, rem'⟩
          rw [hrec] at h
          obtain ⟨hnkp, hrem'⟩ := ih [] [] rest part rem' (by simp) (by simp) hrest hrec
          cases rem' with
          | nil => cases h
          | cons r rrest =>
            refine ih alts (parts ++ [part]) rrest tree rem halts ?_
              (fun c' h' => hrem' c' (List.mem_cons_of_mem r h')) h
            intro t ht
            rcases List.mem_append.mp ht with ht | ht
            · exact hparts t ht
            · have : t = part := by simpa using ht
              rw [this]; exact hnkp
      · rw [if_neg h1] at h
        by_cases h2 : c = ')'
        · rw [if_pos h2] at h
          obtain ⟨rfl, rfl⟩ : finishTree alts parts = tree ∧ c :: rest = rem := by
            simpa using h
          refine ⟨noKleene_finishTree alts parts halts hparts, ?_⟩
          intro c' h'
          rcases List.mem_cons.mp h' with h' | h'
          · rw [h']; exact hc
          · exact hrest c' h'
        · rw [if_neg h2] at h
          by_cases h3 : c = '|'
          · rw [if_pos h3] at h
            refine ih (alts ++ [parts]) [] rest tree rem ?_ (by simp) hrest h
            intro ps hps
            rcases List.mem_append.mp hps with hps | hps
            · exact halts ps hps
            · have : ps = parts := by simpa using hps
              rw [this]; exact hparts
          · rw [if_neg h3] at h
            have h4 : ¬(c = '.' ∨ c = '[') := by
              rintro (rfl | rfl) <;> simp [nonLiteralChars] at hc
            rw [if_neg h4] at h
            have h5 : ¬(c = '*' ∨ c = '+' ∨ c = '{' ∨ c = '?') := by
              rintro (rfl | rfl | rfl | rfl) <;> simp [nonLiteralChars] at hc
            rw [if_neg h5] at h
            have h6 : ¬(c = '\\') := by rintro rfl; simp [nonLiteralChars] at hc
            rw [if_neg h6] at h
            have h7 : ¬(c = '^') := by rintro rfl; simp [nonLiteralChars] at hc
            rw [if_neg h7] at h
            have h8 : ¬(c = '$') := by rintro rfl; simp [nonLiteralChars] at hc
            rw [if_neg h8] at h
            refine ih alts (parts ++ [Tree.literal [c]]) rest tree rem halts ?_ hrest h
            intro t ht
            rcases List.mem_append.mp ht with ht | ht
            · exact hparts t ht
            · have : t = Tree.literal [c] := by simpa using ht
              rw [this]; trivial

theorem parse_noKleene (p : String) (t : Tree) (hlit : LiteralPattern p)
    (hp : parse p = .ok t) : NoKleene t := by
  rw [parse, parseTop] at hp
  cases hres : parseLoop (p.toList.length + 1) [] [] p.toList with
  | error e => rw [hres] at hp; cases hp
  | ok pr =>
    rcases pr with ⟨tree, rem⟩
    rw [hres] at hp
    cases rem with
    | nil =>
      obtain ⟨hnk, -⟩ :=
        parseLoop_noKleene _ [] [] p.toList tree [] (by simp) (by simp) hlit hres
      have hst : simplify tree = t := by simpa using hp
      rw [← hst]
      exact noKleene_simplify tree hnk
    | cons r rrest => cases hp

/-- C9: for every pattern built only from literal characters, grouping,
concatenation and alternation (no repeat operators, no character
classes, no `.`), the set of input strings `match(pattern, ·)` accepts
is exactly the finite set of literal strings the pattern denotes (the
alternation-closure of its concatenated literals), as computed by
`denote` on the parsed tree. -/
theorem C9_literal_language (p : String) (t : Tree) (s : String)
    (hlit : LiteralPattern p) (hp : parse p = .ok t) :
    (matchRe p s = .ok (some true) ↔
      (s.toList.map (fun c => ([c] : Sym))) ∈ denote t) := by
  have hm := matchRe_ok_spec p t s hp
  have hnk := parse_noKleene p t hlit hp
  have hd := specMatch_denote t hnk s.toList
  rw [hm]
  constructor
  · intro h
    have hb : specMatch t s.toList = true := by simpa using h
    exact hd.mp hb
  · intro h
    rw [hd.mpr h]

/-- Witness for C9 at the pattern `"ab|cd"` and input `"cd"`. -/
theorem C9_witness :
    matchRe "ab|cd" "cd" = .ok (some true) ↔
      ("cd".toList.map (fun c => ([c] : Sym))) ∈
        denote (.alternate [.concat [.literal ['a'], .literal ['b']],
          .concat [.literal ['c'], .literal ['d']]]) :=
  C9_literal_language "ab|cd"
    (.alternate [.concat [.literal ['a'], .literal ['b']],
      .concat [.literal ['c'], .literal ['d']]]) "cd"
    (by unfold LiteralPattern; decide) (by decide)

/-! ## Rendering trees back to pattern text (`to_text`) -/

/-- The characters `to_text` escapes with a backslash
(`escape = '+*?{.[()|\\'`). -/
def escapeChars : List Char := ['+', '*', '?', '{', '.', '[', '(', ')', '|', '\\']

/-- `to_text` on a literal: the sentinels render as `^`/`$`, special
one-character values are escaped, anything else is returned verbatim.
(The source's `value in escape` test is a substring test on a Python
string; for the one-character and sentinel values `parse` produces it
coincides with the membership test used here.) -/
def renderLit (v : Sym) : List Char :=
  if v = START then ['^']
  else if v = END then ['$']
  else
    match v with
    | [c] => if c ∈ escapeChars then ['\\', c] else [c]
    | _ => v

mutual

/-- `to_text` on character lists. -/
def render : Tree → List Char
  | .alternate cs => renderAlts cs
  | .concat cs => renderConcat cs
  | .kleene c => renderKleeneChild c ++ ['*']
  | .literal v => renderLit v

/-- A kleene child is wrapped in parentheses when it is an `alternate`
or a `concat`. -/
def renderKleeneChild : Tree → List Char
  | .alternate cs => '(' :: renderAlts cs ++ [')']
  | .concat cs => '(' :: renderConcat cs ++ [')']
  | .kleene c => renderKleeneChild c ++ ['*']
  | .literal v => renderLit v

/-- `'|'.join` over the children of an `alternate`. -/
def renderAlts : List Tree → List Char
  | [] => []
  | [c] => render c
  | c :: cs => render c ++ '|' :: renderAlts cs

/-- `''.join` over the children of a `concat`. -/
def renderConcat : List Tree → List Char
  | [] => []
  | c :: cs => renderConcatItem c ++ renderConcat cs

/-- A concat child is wrapped in parentheses when it is an
`alternate`. -/
def renderConcatItem : Tree → List Char
  | .alternate cs => '(' :: renderAlts cs ++ [')']
  | .concat cs => renderConcat cs
  | .kleene c => renderKleeneChild c ++ ['*']
  | .literal v => renderLit v

end

/-- `to_text`: convert a tree back to a regex string. -/
def to_text (t : Tree) : String := String.mk (render t)

/-! ## The shape of parsed trees: canonical, with well-formed symbols -/

mutual

/-- Every literal value in the tree is a one-character string or one of
the sentinels `START` / `END` — true of every tree `parse` produces. -/
def SymOk : Tree → Prop
  | .alternate cs => SymOkList cs
  | .concat cs => SymOkList cs
  | .kleene c => SymOk c
  | .literal v => (∃ c, v = [c]) ∨ v = START ∨ v = END

/-- All members of a list satisfy `SymOk`. -/
def SymOkList : List Tree → Prop
  | [] => True
  | c :: cs => SymOk c ∧ SymOkList cs

end

theorem symOkList_iff : ∀ cs : List Tree, SymOkList cs ↔ ∀ c ∈ cs, SymOk c := by
  intro cs
  induction cs with
  | nil => simp [SymOkList]
  | cons c cs ih => simp [SymOkList, ih]

theorem parse_canon (p : String) (t : Tree) (hp : parse p = .ok t) : Canon t := by
  rw [parse, parseTop] at hp
  cases hres : parseLoop (p.toList.length + 1) [] [] p.toList with
  | error e => rw [hres] at hp; cases hp
  | ok pr =>
    rcases pr with ⟨tree, rem⟩
    rw [hres] at hp
    cases rem with
    | nil =>
      have hst : simplify tree = t := by simpa using hp
      rw [← hst]
      exact canon_simplify tree
    | cons r rrest => cases hp

theorem symOk_finishTree (alts : List (List Tree)) (parts : List Tree)
    (halts : ∀ ps ∈ alts, ∀ t ∈ ps, SymOk t)
    (hparts : ∀ t ∈ parts, SymOk t) : SymOk (finishTree alts parts) := by
  rw [finishTree]
  refine (symOkList_iff _).mpr ?_
  intro x hx
  rw [List.mem_map] at hx
  obtain ⟨ps, hps, rfl⟩ := hx
  rcases List.mem_append.mp hps with h | h
  · exact (symOkList_iff ps).mpr (halts ps h)
  · have hpp : ps = parts := by simpa using h
    rw [hpp]
    exact (symOkList_iff parts).mpr hparts

theorem symOk_classTree (charset : Finset Char) : SymOk (classTree charset) := by
  rw [classTree]
  refine (symOkList_iff _).mpr ?_
  intro x hx
  rw [List.mem_map] at hx
  obtain ⟨ch, -, rfl⟩ := hx
  exact Or.inl ⟨ch, rfl⟩

theorem escChar_symOk (l : List Char) (t : Tree) (r : List Char)
    (h : escChar l = .ok (t, r)) : SymOk t := by
  cases l with
  | nil => cases h
  | cons e rest =>
    obtain ⟨rfl, -⟩ : Tree.literal [e] = t ∧ rest = r := by simpa [escChar] using h
    exact Or.inl ⟨e, rfl⟩

theorem applyRepeat_symOk (parts : List Tree) (value : Tree) (least : Nat)
    (most : Option Nat) (hparts : ∀ t ∈ parts, SymOk t) (hval : SymOk value) :
    ∀ t ∈ applyRepeat parts value least most, SymOk t := by
  intro t ht
  cases most with
  | none =>
    rw [applyRepeat] at ht
    rcases List.mem_append.mp ht with h | h
    · rcases List.mem_append.mp h with h | h
      · exact hparts t ((List.dropLast_sublist _).subset h)
      · rw [List.eq_of_mem_replicate h]; exact hval
    · have hk : t = Tree.kleene value := by simpa using h
      rw [hk]; exact hval
  | some m =>
    rw [applyRepeat] at ht
    rcases List.mem_append.mp ht with h | h
    · rcases List.mem_append.mp h with h | h
      · exact hparts t ((List.dropLast_sublist _).subset h)
      · rw [List.eq_of_mem_replicate h]; exact hval
    · rw [List.eq_of_mem_replicate h]
      exact show SymOkList [Tree.concat [], value] from ⟨trivial, hval, trivial⟩

theorem mem_of_getLast?_eq {α : Type} {l : List α} {a : α}
    (h : l.getLast? = some a) : a ∈ l := by
  obtain ⟨hne, heq⟩ := List.mem_getLast?_eq_getLast (Option.mem_def.mpr h)
  rw [heq]
  exact List.getLast_mem hne

theorem parseLoop_symOk : ∀ (fuel : Nat) (alts : List (List Tree)) (parts : List Tree)
    (data : List Char) (tree : Tree) (rem : List Char),
    (∀ ps ∈ alts, ∀ t ∈ ps, SymOk t) → (∀ t ∈ parts, SymOk t) →
    parseLoop fuel alts parts data = .ok (tree, rem) → SymOk tree := by
  intro fuel
  induction fuel with
  | zero =>
    intro alts parts data tree rem _ _ h
    exact Except.noConfusion h
  | succ fuel ih =>
    intro alts parts data tree rem halts hparts h
    cases data with
    | nil =>
      rw [parseLoop] at h
      obtain ⟨rfl, -⟩ : finishTree alts parts = tree ∧ ([] : List Char) = rem := by
        simpa using h
      exact symOk_finishTree alts parts halts hparts
    | cons c rest =>
      rw [parseLoop] at h
      by_cases h1 : c = '('
      · rw [if_pos h1] at h
        cases hrec : parseLoop fuel [] [] rest with
        | error e => rw [hrec] at h; cases h
        | ok pr =>
          rcases pr with ⟨part, rem'⟩
          rw [hrec] at h
          have hnkp := ih [] [] rest part rem' (by simp) (by simp) hrec
          cases rem' with
          | nil => cases h
          | cons r rrest =>
            refine ih alts (parts ++ [part]) rrest tree rem halts ?_ h
            intro t ht
            rcases List.mem_append.mp ht with ht | ht
            · exact hparts t ht
            · have htp : t = part := by simpa using ht
              rw [htp]; exact hnkp
      · rw [if_neg h1] at h
        by_cases h2 : c = ')'
        · rw [if_pos h2] at h
          obtain ⟨rfl, -⟩ : finishTree alts parts = tree ∧ c :: rest = rem := by
            simpa using h
          exact symOk_finishTree alts parts halts hparts
        · rw [if_neg h2] at h
          by_cases h3 : c = '|'
          · rw [if_pos h3] at h
            refine ih (alts ++ [parts]) [] rest tree rem ?_ (by simp) h
            intro ps hps
            rcases List.mem_append.mp hps with hps | hps
            · exact halts ps hps
            · have hpp : ps = parts := by simpa using hps
              rw [hpp]; exact hparts
          · rw [if_neg h3] at h
            by_cases h4 : c = '.' ∨ c = '['
            · rw [if_pos h4] at h
              cases hcl : classScan c rest with
              | error e => simp only [hcl] at h; cases h
              | ok pr =>
                rcases pr with ⟨negate, chars, rest'⟩
                simp only [hcl] at h
                cases hbc : buildCharset ∅ chars with
                | error e => simp only [hbc] at h; cases h
                | ok charset =>
                  simp only [hbc] at h
                  refine ih alts (parts ++ [classTreeOf negate charset]) rest' tree rem
                    halts ?_ h
                  intro t ht
                  rcases List.mem_append.mp ht with ht | ht
                  · exact hparts t ht
                  · have htc : t = classTreeOf negate charset := by simpa using ht
                    rw [htc, classTreeOf]
                    exact symOk_classTree _
            · rw [if_neg h4] at h
              by_cases h5 : c = '*' ∨ c = '+' ∨ c = '{' ∨ c = '?'
              · rw [if_pos h5] at h
                cases hrs : repScan c rest with
                | error e => simp only [hrs] at h; cases h
                | ok pr =>
                  rcases pr with ⟨least, most, rest'⟩
                  simp only [hrs] at h
                  by_cases hbb : badBounds least most = true
                  · rw [if_pos hbb] at h; cases h
                  · rw [if_neg hbb] at h
                    cases hgl : parts.getLast? with
                    | none => simp only [hgl] at h; cases h
                    | some value =>
                      simp only [hgl] at h
                      refine ih alts (applyRepeat parts value least most) rest' tree rem
                        halts ?_ h
                      exact applyRepeat_symOk parts value least most hparts
                        (hparts value (mem_of_getLast?_eq hgl))
              · rw [if_neg h5] at h
                by_cases h6 : c = '\\'
                · rw [if_pos h6] at h
                  cases hec : escChar rest with
                  | error e => simp only [hec] at h; cases h
                  | ok pr =>
                    rcases pr with ⟨t0, rest'⟩
                    simp only [hec] at h
                    refine ih alts (parts ++ [t0]) rest' tree rem halts ?_ h
                    intro t ht
                    rcases List.mem_append.mp ht with ht | ht
                    · exact hparts t ht
                    · have htt : t = t0 := by simpa using ht
                      rw [htt]
                      exact escChar_symOk rest t0 rest' hec
                · rw [if_neg h6] at h
                  by_cases h7 : c = '^'
                  · rw [if_pos h7] at h
                    refine ih alts (parts ++ [Tree.literal START]) rest tree rem halts ?_ h
                    intro t ht
                    rcases List.mem_append.mp ht with ht | ht
                    · exact hparts t ht
                    · have htt : t = Tree.literal START := by simpa using ht
                      rw [htt]; exact Or.inr (Or.inl rfl)
                  · rw [if_neg h7] at h
                    by_cases h8 : c = '$'
                    · rw [if_pos h8] at h
                      refine ih alts (parts ++ [Tree.literal END]) rest tree rem halts ?_ h
                      intro t ht
                      rcases List.mem_append.mp ht with ht | ht
                      · exact hparts t ht
                      · have htt : t = Tree.literal END := by simpa using ht
                        rw [htt]; exact Or.inr (Or.inr rfl)
                    · rw [if_neg h8] at h
                      refine ih alts (parts ++ [Tree.literal [c]]) rest tree rem halts ?_ h
                      intro t ht
                      rcases List.mem_append.mp ht with ht | ht
                      · exact hparts t ht
                      · have htt : t = Tree.literal [c] := by simpa using ht
                        rw [htt]; exact Or.inl ⟨c, rfl⟩

theorem symOk_simplify : ∀ t : Tree, SymOk t → SymOk (simplify t) := by
  intro t
  induction t using Tree.myInd with
  | halt cs ih =>
    intro hsk
    have hmem : ∀ x ∈ spliceAlts (simplifyList cs), SymOk x := by
      intro x hx
      have hsl : ∀ y ∈ simplifyList cs, SymOk y := by
        intro y hy
        obtain ⟨c, hc, rfl⟩ := mem_simplifyList cs y hy
        exact ih c hc ((symOkList_iff cs).mp hsk c hc)
      rcases mem_spliceAlts_cases _ x hx with h | ⟨gs, hg, hxg⟩
      · exact hsl x h
      · exact (symOkList_iff gs).mp (hsl _ hg) x hxg
    show SymOk (simpAltPost (spliceAlts (simplifyList cs)))
    rw [simpAltPost]
    by_cases hnil : spliceAlts (simplifyList cs) = []
    · rw [if_pos hnil]; trivial
    · rw [if_neg hnil]
      have hd : ∀ x ∈ dedupAcc ((spliceAlts (simplifyList cs)).any isKleene) []
          (spliceAlts (simplifyList cs)), SymOk x := by
        intro x hx
        rcases mem_dedupAcc _ _ [] x hx with h | h
        · cases h
        · exact hmem x h
      rcases hdd : dedupAcc ((spliceAlts (simplifyList cs)).any isKleene) []
          (spliceAlts (simplifyList cs)) with _ | ⟨a, rest⟩
      · trivial
      · rw [hdd] at hd
        cases rest with
        | nil => exact hd a (List.mem_cons_self _ _)
        | cons b brest => exact (symOkList_iff _).mpr hd
  | hcat cs ih =>
    intro hsk
    have hmem : ∀ x ∈ spliceConcats (simplifyList cs), SymOk x := by
      intro x hx
      have hsl : ∀ y ∈ simplifyList cs, SymOk y := by
        intro y hy
        obtain ⟨c, hc, rfl⟩ := mem_simplifyList cs y hy
        exact ih c hc ((symOkList_iff cs).mp hsk c hc)
      rcases mem_spliceConcats_cases _ x hx with h | ⟨gs, hg, hxg⟩
      · exact hsl x h
      · exact (symOkList_iff gs).mp (hsl _ hg) x hxg
    show SymOk (simpCatPost (spliceConcats (simplifyList cs)))
    rcases hsc : spliceConcats (simplifyList cs) with _ | ⟨a, rest⟩
    · trivial
    · rw [hsc] at hmem
      cases rest with
      | nil => exact hmem a (List.mem_cons_self _ _)
      | cons b brest => exact (symOkList_iff _).mpr hmem
  | hkle c ih =>
    intro hsk
    have h1 : SymOk (simplify c) := ih hsk
    show SymOk (simpKlePost (simplify c))
    cases hsc : simplify c with
    | alternate cs => rw [hsc] at h1; exact h1
    | concat cs =>
      rw [hsc] at h1
      cases cs with
      | nil => trivial
      | cons a rest => exact h1
    | kleene c' => rw [hsc] at h1; exact h1
    | literal v => rw [hsc] at h1; exact h1
  | hlit v => intro h; exact h

theorem parse_symOk (p : String) (t : Tree) (hp : parse p = .ok t) : SymOk t := by
  rw [parse, parseTop] at hp
  cases hres : parseLoop (p.toList.length + 1) [] [] p.toList with
  | error e => rw [hres] at hp; cases hp
  | ok pr =>
    rcases pr with ⟨tree, rem⟩
    rw [hres] at hp
    cases rem with
    | nil =>
      have hsk := parseLoop_symOk _ [] [] p.toList tree [] (by simp) (by simp) hres
      have hst : simplify tree = t := by simpa using hp
      rw [← hst]
      exact symOk_simplify tree hsk
    | cons r rrest => cases hp

mutual

/-- No literal in the tree holds the one-character value `'^'` or `'$'`
(the two values `to_text` renders as unescaped anchors, which re-parse
as the `START`/`END` pseudo-tokens instead). -/
def NoCaret : Tree → Prop
  | .alternate cs => NoCaretList cs
  | .concat cs => NoCaretList cs
  | .kleene c => NoCaret c
  | .literal v => v ≠ ['^'] ∧ v ≠ ['$']

/-- All members of a list satisfy `NoCaret`. -/
def NoCaretList : List Tree → Prop
  | [] => True
  | c :: cs => NoCaret c ∧ NoCaretList cs

end

theorem noCaretList_iff : ∀ cs : List Tree, NoCaretList cs ↔ ∀ c ∈ cs, NoCaret c := by
  intro cs
  induction cs with
  | nil => simp [NoCaretList]
  | cons c cs ih => simp [NoCaretList, ih]

/-! ## The parser consumes input: remainder-length bounds and fuel stability -/

theorem collectClass_rem : ∀ n l, l.length ≤ n → ∀ first negate chars neg cs rest,
    collectClass first negate chars l = .ok (neg, cs, rest) →
    rest.length < l.length := by
  intro n
  induction n with
  | zero =>
    intro l hl first negate chars neg cs rest h
    cases l with
    | nil => exact Except.noConfusion h
    | cons c r => simp at hl
  | succ n ih =>
    intro l hl first negate chars neg cs rest h
    cases l with
    | nil => exact Except.noConfusion h
    | cons c rest0 =>
      simp only [List.length_cons]
      cases rest0 with
      | nil =>
        have h' : (if chars ≠ [] ∧ c = ']' then
              (Except.ok (negate, chars, ([] : List Char))
                : Except PErr (Bool × List CItem × List Char))
            else if c = '\\' then .error (.parseError "Unterminated escape")
            else if first ∧ c = '^' then collectClass false true chars []
            else if c = '-' then collectClass false negate (chars ++ [CItem.rangeMark]) []
            else collectClass false negate (chars ++ [CItem.ch c]) [])
            = .ok (neg, cs, rest) := h
        by_cases h1 : chars ≠ [] ∧ c = ']'
        · rw [if_pos h1] at h'
          rcases h' with ⟨-, -, rfl⟩
          omega
        · rw [if_neg h1] at h'
          by_cases h2 : c = '\\'
          · rw [if_pos h2] at h'
            exact Except.noConfusion h'
          · rw [if_neg h2] at h'
            by_cases h3 : first ∧ c = '^'
            · rw [if_pos h3] at h'
              exact Except.noConfusion h'
            · rw [if_neg h3] at h'
              by_cases h4 : c = '-'
              · rw [if_pos h4] at h'
                exact Except.noConfusion h'
              · rw [if_neg h4] at h'
                exact Except.noConfusion h'
      | cons e rest' =>
        have h' : (if chars ≠ [] ∧ c = ']' then
              (Except.ok (negate, chars, e :: rest')
                : Except PErr (Bool × List CItem × List Char))
            else if c = '\\' then collectClass false negate (chars ++ [CItem.ch e]) rest'
            else if first ∧ c = '^' then collectClass false true chars (e :: rest')
            else if c = '-' then
              collectClass false negate (chars ++ [CItem.rangeMark]) (e :: rest')
            else collectClass false negate (chars ++ [CItem.ch c]) (e :: rest'))
            = .ok (neg, cs, rest) := h
        by_cases h1 : chars ≠ [] ∧ c = ']'
        · rw [if_pos h1] at h'
          rcases h' with ⟨-, -, rfl⟩
          omega
        · rw [if_neg h1] at h'
          by_cases h2 : c = '\\'
          · rw [if_pos h2] at h'
            have := ih rest' (by simp at hl; omega) _ _ _ _ _ _ h'
            simp only [List.length_cons] at this ⊢
            omega
          · rw [if_neg h2] at h'
            by_cases h3 : first ∧ c = '^'
            · rw [if_pos h3] at h'
              have := ih (e :: rest') (by simp at hl ⊢; omega) _ _ _ _ _ _ h'
              simp only [List.length_cons] at this ⊢
              omega
            · rw [if_neg h3] at h'
              by_cases h4 : c = '-'
              · rw [if_pos h4] at h'
                have := ih (e :: rest') (by simp at hl ⊢; omega) _ _ _ _ _ _ h'
                simp only [List.length_cons] at this ⊢
                omega
              · rw [if_neg h4] at h'
                have := ih (e :: rest') (by simp at hl ⊢; omega) _ _ _ _ _ _ h'
                simp only [List.length_cons] at this ⊢
                omega

theorem collectRepeat_rem : ∀ l rd rest, collectRepeat l = .ok (rd, rest) →
    rest.length < l.length := by
  intro l
  induction l with
  | nil => intro rd rest h; exact Except.noConfusion h
  | cons c rest0 ih =>
    intro rd rest h
    rw [collectRepeat] at h
    by_cases h1 : c = '}'
    · rw [if_pos h1] at h
      simp only [Except.ok.injEq, Prod.mk.injEq] at h
      obtain ⟨-, rfl⟩ := h
      simp
    · rw [if_neg h1] at h
      cases hcr : collectRepeat rest0 with
      | error e => simp only [hcr] at h; cases h
      | ok pr =>
        rcases pr with ⟨rd', rest'⟩
        simp only [hcr] at h
        simp only [Except.ok.injEq, Prod.mk.injEq] at h
        obtain ⟨-, rfl⟩ := h
        have := ih rd' rest' hcr
        simp only [List.length_cons]
        omega

theorem escChar_rem : ∀ l t rest, escChar l = .ok (t, rest) → rest.length < l.length := by
  intro l t rest h
  cases l with
  | nil => exact Except.noConfusion h
  | cons e rest' =>
    rw [escChar] at h
    simp only [Except.ok.injEq, Prod.mk.injEq] at h
    obtain ⟨-, rfl⟩ := h
    simp

theorem classScan_rem : ∀ c rest negate chars rest',
    classScan c rest = .ok (negate, chars, rest') → rest'.length ≤ rest.length := by
  intro c rest negate chars rest' h
  rw [classScan] at h
  by_cases h1 : c = '.'
  · rw [if_pos h1] at h
    simp only [Except.ok.injEq, Prod.mk.injEq] at h
    obtain ⟨-, -, rfl⟩ := h
    exact le_rfl
  · rw [if_neg h1] at h
    exact Nat.le_of_lt (collectClass_rem rest.length rest le_rfl _ _ _ _ _ _ h)

theorem repScan_rem : ∀ c rest least most rest',
    repScan c rest = .ok (least, most, rest') → rest'.length ≤ rest.length := by
  intro c rest least most rest' h
  rw [repScan] at h
  by_cases h1 : c = '{'
  · rw [if_pos h1] at h
    cases hcr : collectRepeat rest with
    | error e => simp only [hcr] at h; cases h
    | ok pr =>
      rcases pr with ⟨rd, rest0⟩
      simp only [hcr] at h
      cases hrb : repeatBounds rd with
      | error e => simp only [hrb] at h; cases h
      | ok pr2 =>
        rcases pr2 with ⟨l2, m2⟩
        simp only [hrb] at h
        simp only [Except.ok.injEq, Prod.mk.injEq] at h
        obtain ⟨-, -, rfl⟩ := h
        exact Nat.le_of_lt (collectRepeat_rem rest rd rest0 hcr)
  · rw [if_neg h1] at h
    by_cases h2 : c = '?'
    · rw [if_pos h2] at h
      simp only [Except.ok.injEq, Prod.mk.injEq] at h
      obtain ⟨-, -, rfl⟩ := h
      exact le_rfl
    · rw [if_neg h2] at h
      by_cases h3 : c = '*'
      · rw [if_pos h3] at h
        simp only [Except.ok.injEq, Prod.mk.injEq] at h
        obtain ⟨-, -, rfl⟩ := h
        exact le_rfl
      · rw [if_neg h3] at h
        simp only [Except.ok.injEq, Prod.mk.injEq] at h
        obtain ⟨-, -, rfl⟩ := h
        exact le_rfl

theorem parseLoop_rem_le : ∀ fuel alts parts data tree rem,
    parseLoop fuel alts parts data = .ok (tree, rem) → rem.length ≤ data.length := by
  intro fuel
  induction fuel with
  | zero => intro _ _ _ _ _ h; exact Except.noConfusion h
  | succ fuel ih =>
    intro alts parts data tree rem h
    cases data with
    | nil =>
      rw [parseLoop] at h
      obtain ⟨-, rfl⟩ : finishTree alts parts = tree ∧ ([] : List Char) = rem := by
        simpa using h
      exact le_rfl
    | cons c rest =>
      rw [parseLoop] at h
      simp only [List.length_cons]
      by_cases h1 : c = '('
      · rw [if_pos h1] at h
        cases hrec : parseLoop fuel [] [] rest with
        | error e => rw [hrec] at h; cases h
        | ok pr =>
          rcases pr with ⟨part, rem'⟩
          rw [hrec] at h
          cases rem' with
          | nil => cases h
          | cons r rrest =>
            have hr1 := ih _ _ _ _ _ h
            have hr2 := ih [] [] rest part (r :: rrest) hrec
            simp only [List.length_cons] at hr2
            omega
      · rw [if_neg h1] at h
        by_cases h2 : c = ')'
        · rw [if_pos h2] at h
          obtain ⟨-, rfl⟩ : finishTree alts parts = tree ∧ c :: rest = rem := by
            simpa using h
          simp
        · rw [if_neg h2] at h
          by_cases h3 : c = '|'
          · rw [if_pos h3] at h
            have := ih _ _ _ _ _ h
            omega
          · rw [if_neg h3] at h
            by_cases h4 : c = '.' ∨ c = '['
            · rw [if_pos h4] at h
              cases hcl : classScan c rest with
              | error e => simp only [hcl] at h; cases h
              | ok pr =>
                rcases pr with ⟨negate, chars, rest'⟩
                simp only [hcl] at h
                cases hbc : buildCharset ∅ chars with
                | error e => simp only [hbc] at h; cases h
                | ok charset =>
                  simp only [hbc] at h
                  have hr1 := ih _ _ _ _ _ h
                  have hr2 := classScan_rem c rest negate chars rest' hcl
                  omega
            · rw [if_neg h4] at h
              by_cases h5 : c = '*' ∨ c = '+' ∨ c = '{' ∨ c = '?'
              · rw [if_pos h5] at h
                cases hrs : repScan c rest with
                | error e => simp only [hrs] at h; cases h
                | ok pr =>
                  rcases pr with ⟨least, most, rest'⟩
                  simp only [hrs] at h
                  by_cases hbb : badBounds least most = true
                  · rw [if_pos hbb] at h; cases h
                  · rw [if_neg hbb] at h
                    cases hgl : parts.getLast? with
                    | none => simp only [hgl] at h; cases h
                    | some value =>
                      simp only [hgl] at h
                      have hr1 := ih _ _ _ _ _ h
                      have hr2 := repScan_rem c rest least most rest' hrs
                      omega
              · rw [if_neg h5] at h
                by_cases h6 : c = '\\'
                · rw [if_pos h6] at h
                  cases hec : escChar rest with
                  | error e => simp only [hec] at h; cases h
                  | ok pr =>
                    rcases pr with ⟨t0, rest'⟩
                    simp only [hec] at h
                    have hr1 := ih _ _ _ _ _ h
                    have hr2 := escChar_rem rest t0 rest' hec
                    omega
                · rw [if_neg h6] at h
                  by_cases h7 : c = '^'
                  · rw [if_pos h7] at h
                    have := ih _ _ _ _ _ h
                    omega
                  · rw [if_neg h7] at h
                    by_cases h8 : c = '$'
                    · rw [if_pos h8] at h
                      have := ih _ _ _ _ _ h
                      omega
                    · rw [if_neg h8] at h
                      have := ih _ _ _ _ _ h
                      omega

theorem parseLoop_stab : ∀ n data, data.length ≤ n → ∀ f1 f2 alts parts,
    data.length < f1 → data.length < f2 →
    parseLoop f1 alts parts data = parseLoop f2 alts parts data := by
  intro n
  induction n with
  | zero =>
    intro data hlen f1 f2 alts parts h1 h2
    cases data with
    | cons c r => simp at hlen
    | nil =>
      cases f1 with
      | zero => omega
      | succ g1 =>
        cases f2 with
        | zero => omega
        | succ g2 => rfl
  | succ n ih =>
    intro data hlen f1 f2 alts parts hf1 hf2
    cases f1 with
    | zero => omega
    | succ g1 =>
      cases f2 with
      | zero => omega
      | succ g2 =>
        cases data with
        | nil => rfl
        | cons c rest =>
          simp only [List.length_cons] at hlen hf1 hf2
          rw [parseLoop]
          rw [parseLoop]
          by_cases h1 : c = '('
          · rw [if_pos h1, if_pos h1]
            have hrec : parseLoop g1 [] [] rest = parseLoop g2 [] [] rest :=
              ih rest (by omega) g1 g2 [] [] (by omega) (by omega)
            rw [hrec]
            cases hg : parseLoop g2 [] [] rest with
            | error e => rfl
            | ok pr =>
              rcases pr with ⟨part, rem'⟩
              cases rem' with
              | nil => rfl
              | cons r rrest =>
                have hr := parseLoop_rem_le g2 [] [] rest part (r :: rrest) hg
                simp only [List.length_cons] at hr
                exact ih rrest (by omega) g1 g2 alts (parts ++ [part]) (by omega) (by omega)
          · rw [if_neg h1, if_neg h1]
            by_cases h2 : c = ')'
            · rw [if_pos h2, if_pos h2]
            · rw [if_neg h2, if_neg h2]
              by_cases h3 : c = '|'
              · rw [if_pos h3, if_pos h3]
                exact ih rest (by omega) g1 g2 (alts ++ [parts]) [] (by omega) (by omega)
              · rw [if_neg h3, if_neg h3]
                by_cases h4 : c = '.' ∨ c = '['
                · rw [if_pos h4, if_pos h4]
                  cases hcl : classScan c rest with
                  | error e => rfl
                  | ok pr =>
                    rcases pr with ⟨negate, chars, rest'⟩
                    simp only []
                    cases hbc : buildCharset ∅ chars with
                    | error e => rfl
                    | ok charset =>
                      have hr := classScan_rem c rest negate chars rest' hcl
                      exact ih rest' (by omega) g1 g2 alts
                        (parts ++ [classTreeOf negate charset]) (by omega) (by omega)
                · rw [if_neg h4, if_neg h4]
                  by_cases h5 : c = '*' ∨ c = '+' ∨ c = '{' ∨ c = '?'
                  · rw [if_pos h5, if_pos h5]
                    cases hrs : repScan c rest with
                    | error e => rfl
                    | ok pr =>
                      rcases pr with ⟨least, most, rest'⟩
                      simp only []
                      by_cases hbb : badBounds least most = true
                      · rw [if_pos hbb, if_pos hbb]
                      · rw [if_neg hbb, if_neg hbb]
                        cases hgl : parts.getLast? with
                        | none => rfl
                        | some value =>
                          have hr := repScan_rem c rest least most rest' hrs
                          exact ih rest' (by omega) g1 g2 alts
                            (applyRepeat parts value least most) (by omega) (by omega)
                  · rw [if_neg h5, if_neg h5]
                    by_cases h6 : c = '\\'
                    · rw [if_pos h6, if_pos h6]
                      cases hec : escChar rest with
                      | error e => rfl
                      | ok pr =>
                        rcases pr with ⟨t0, rest'⟩
                        have hr := escChar_rem rest t0 rest' hec
                        exact ih rest' (by omega) g1 g2 alts (parts ++ [t0])
                          (by omega) (by omega)
                    · rw [if_neg h6, if_neg h6]
                      by_cases h7 : c = '^'
                      · rw [if_pos h7, if_pos h7]
                        exact ih rest (by omega) g1 g2 alts
                          (parts ++ [Tree.literal START]) (by omega) (by omega)
                      · rw [if_neg h7, if_neg h7]
                        by_cases h8 : c = '$'
                        · rw [if_pos h8, if_pos h8]
                          exact ih rest (by omega) g1 g2 alts
                            (parts ++ [Tree.literal END]) (by omega) (by omega)
                        · rw [if_neg h8, if_neg h8]
                          exact ih rest (by omega) g1 g2 alts
                            (parts ++ [Tree.literal [c]]) (by omega) (by omega)

/-- `parseLoop` run with just enough fuel, the canonical fuel-free form. -/
def runLoop (alts : List (List Tree)) (parts : List Tree) (data : List Char) :
    Except PErr (Tree × List Char) :=
  parseLoop (data.length + 1) alts parts data

theorem parseLoop_eq_runLoop (f : Nat) (alts : List (List Tree)) (parts : List Tree)
    (data : List Char) (hf : data.length < f) :
    parseLoop f alts parts data = runLoop alts parts data :=
  parseLoop_stab data.length data le_rfl f (data.length + 1) alts parts hf (Nat.lt_succ_self _)

/-! ## Re-parsing rendered text: the raw tree the parser reconstructs -/

mutual

/-- The tree `_parse` pushes onto `parts` when it re-reads the
rendering of one concat item of a canonical tree. -/
def rawItem : Tree → Tree
  | .alternate cs => .alternate (rawAltList cs)
  | .concat cs => .concat (rawPartsList cs)
  | .kleene c => .kleene (rawKleene c)
  | .literal v => .literal v

/-- The tree pushed for a re-read kleene child; container children are
parenthesised by `to_text`, so they come back as a one-alternative
group. -/
def rawKleene : Tree → Tree
  | .alternate cs => .alternate (rawAltList cs)
  | .concat cs => .alternate [.concat (rawPartsList cs)]
  | .kleene c => .kleene (rawKleene c)
  | .literal v => .literal v

/-- The `parts` list accumulated by re-reading one alternative. -/
def rawParts : Tree → List Tree
  | .alternate cs => [.alternate (rawAltList cs)]
  | .concat cs => rawPartsList cs
  | .kleene c => [.kleene (rawKleene c)]
  | .literal v => [.literal v]

/-- `rawItem` over a list of concat items. -/
def rawPartsList : List Tree → List Tree
  | [] => []
  | u :: us => rawItem u :: rawPartsList us

/-- `Tree.concat ∘ rawParts` over the children of an alternate. -/
def rawAltList : List Tree → List Tree
  | [] => []
  | c :: cs => .concat (rawParts c) :: rawAltList cs

end

/-- The `(alternates, parts)` accumulator state after re-reading a
`|`-separated alternative sequence, starting from a given `parts`. -/
def rawSeq : List Tree → List Tree → List (List Tree) × List Tree
  | parts, [] => ([], parts)
  | parts, [c] => ([], parts ++ rawParts c)
  | parts, c :: c2 :: cs =>
    ((parts ++ rawParts c) :: (rawSeq [] (c2 :: cs)).1, (rawSeq [] (c2 :: cs)).2)

/-- The unsimplified tree `_parse` reconstructs from the rendering of a
canonical tree, before `_simplify` collapses it back. -/
def rawTop : Tree → Tree
  | .alternate cs => .alternate (rawAltList cs)
  | .concat cs => .alternate [.concat (rawPartsList cs)]
  | .kleene c => .alternate [.concat [.kleene (rawKleene c)]]
  | .literal v => .alternate [.concat [.literal v]]

theorem rawSeq_alt : ∀ (cs : List Tree) (c : Tree),
    ((rawSeq [] (c :: cs)).1 ++ [(rawSeq [] (c :: cs)).2]).map Tree.concat
      = rawAltList (c :: cs) := by
  intro cs
  induction cs with
  | nil => intro c; rfl
  | cons c2 cs ih =>
    intro c
    show ((([] ++ rawParts c) :: (rawSeq [] (c2 :: cs)).1)
        ++ [(rawSeq [] (c2 :: cs)).2]).map Tree.concat = _
    simp only [List.cons_append, List.map_cons]
    rw [ih c2]
    rfl

/-! ## Single steps of the parser on rendered text -/

theorem step_nil (alts : List (List Tree)) (parts : List Tree) :
    runLoop alts parts [] = .ok (finishTree alts parts, []) := rfl

theorem step_close (alts : List (List Tree)) (parts : List Tree) (rest : List Char) :
    runLoop alts parts (')' :: rest) = .ok (finishTree alts parts, ')' :: rest) := by
  simp only [runLoop]
  rw [parseLoop]
  rw [if_neg (by decide : ¬(')' = '(')), if_pos rfl]

theorem step_pipe (alts : List (List Tree)) (parts : List Tree) (rest : List Char) :
    runLoop alts parts ('|' :: rest) = runLoop (alts ++ [parts]) [] rest := by
  simp only [runLoop]
  rw [parseLoop]
  rw [if_neg (by decide : ¬('|' = '(')), if_neg (by decide : ¬('|' = ')')), if_pos rfl]
  rfl

theorem step_caret (alts : List (List Tree)) (parts : List Tree) (rest : List Char) :
    runLoop alts parts ('^' :: rest) = runLoop alts (parts ++ [Tree.literal START]) rest := by
  simp only [runLoop]
  rw [parseLoop]
  rw [if_neg (by decide : ¬('^' = '(')), if_neg (by decide : ¬('^' = ')')),
    if_neg (by decide : ¬('^' = '|')), if_neg (by decide : ¬('^' = '.' ∨ '^' = '[')),
    if_neg (by decide : ¬('^' = '*' ∨ '^' = '+' ∨ '^' = '{' ∨ '^' = '?')),
    if_neg (by decide : ¬('^' = '\\')), if_pos rfl]
  rfl

theorem step_dollar (alts : List (List Tree)) (parts : List Tree) (rest : List Char) :
    runLoop alts parts ('$' :: rest) = runLoop alts (parts ++ [Tree.literal END]) rest := by
  simp only [runLoop]
  rw [parseLoop]
  rw [if_neg (by decide : ¬('$' = '(')), if_neg (by decide : ¬('$' = ')')),
    if_neg (by decide : ¬('$' = '|')), if_neg (by decide : ¬('$' = '.' ∨ '$' = '[')),
    if_neg (by decide : ¬('$' = '*' ∨ '$' = '+' ∨ '$' = '{' ∨ '$' = '?')),
    if_neg (by decide : ¬('$' = '\\')), if_neg (by decide : ¬('$' = '^')), if_pos rfl]
  rfl

theorem step_lit (c : Char) (hce : c ∉ escapeChars) (hc1 : c ≠ '^') (hc2 : c ≠ '$')
    (alts : List (List Tree)) (parts : List Tree) (rest : List Char) :
    runLoop alts parts (c :: rest) = runLoop alts (parts ++ [Tree.literal [c]]) rest := by
  have h1 : ¬(c = '(') := fun h => hce (by rw [h]; decide)
  have h2 : ¬(c = ')') := fun h => hce (by rw [h]; decide)
  have h3 : ¬(c = '|') := fun h => hce (by rw [h]; decide)
  have h4 : ¬(c = '.' ∨ c = '[') := by
    rintro (rfl | rfl) <;> exact hce (by decide)
  have h5 : ¬(c = '*' ∨ c = '+' ∨ c = '{' ∨ c = '?') := by
    rintro (rfl | rfl | rfl | rfl) <;> exact hce (by decide)
  have h6 : ¬(c = '\\') := fun h => hce (by rw [h]; decide)
  simp only [runLoop]
  rw [parseLoop]
  rw [if_neg h1, if_neg h2, if_neg h3, if_neg h4, if_neg h5, if_neg h6,
    if_neg hc1, if_neg hc2]
  rfl

theorem step_esc (c : Char) (alts : List (List Tree)) (parts : List Tree)
    (rest : List Char) :
    runLoop alts parts ('\\' :: c :: rest) = runLoop alts (parts ++ [Tree.literal [c]]) rest := by
  simp only [runLoop]
  rw [parseLoop]
  rw [if_neg (by decide : ¬('\\' = '(')), if_neg (by decide : ¬('\\' = ')')),
    if_neg (by decide : ¬('\\' = '|')), if_neg (by decide : ¬('\\' = '.' ∨ '\\' = '[')),
    if_neg (by decide : ¬('\\' = '*' ∨ '\\' = '+' ∨ '\\' = '{' ∨ '\\' = '?')),
    if_pos rfl]
  exact parseLoop_eq_runLoop (List.length ('\\' :: c :: rest)) alts
    (parts ++ [Tree.literal [c]]) rest (by simp only [List.length_cons]; omega)

theorem step_star (value : Tree) (alts : List (List Tree)) (parts : List Tree)
    (rest : List Char) :
    runLoop alts (parts ++ [value]) ('*' :: rest)
      = runLoop alts (parts ++ [Tree.kleene value]) rest := by
  simp only [runLoop]
  rw [parseLoop]
  rw [if_neg (by decide : ¬('*' = '(')), if_neg (by decide : ¬('*' = ')')),
    if_neg (by decide : ¬('*' = '|')), if_neg (by decide : ¬('*' = '.' ∨ '*' = '[')),
    if_pos (Or.inl rfl : '*' = '*' ∨ '*' = '+' ∨ '*' = '{' ∨ '*' = '?')]
  have hrs : repScan '*' rest = .ok (0, none, rest) := rfl
  rw [hrs]
  simp only []
  rw [if_neg (by decide : ¬(badBounds 0 none = true))]
  rw [List.getLast?_concat]
  simp only []
  have ha : applyRepeat (parts ++ [value]) value 0 none = parts ++ [Tree.kleene value] := by
    rw [applyRepeat.eq_def]
    simp [List.dropLast_concat]
  rw [ha]
  rfl

theorem step_group (body : List Char) (part : Tree) (rem' : List Char)
    (hg : runLoop [] [] body = .ok (part, ')' :: rem'))
    (alts : List (List Tree)) (parts : List Tree) :
    runLoop alts parts ('(' :: body) = runLoop alts (parts ++ [part]) rem' := by
  have hg' : parseLoop (List.length ('(' :: body)) [] [] body = .ok (part, ')' :: rem') := hg
  have hr := parseLoop_rem_le (body.length + 1) [] [] body part (')' :: rem') hg
  simp only [List.length_cons] at hr
  simp only [runLoop]
  rw [parseLoop]
  rw [if_pos rfl]
  rw [hg']
  exact parseLoop_eq_runLoop (List.length ('(' :: body)) alts (parts ++ [part]) rem'
    (by simp only [List.length_cons]; omega)

/-- Re-reading the rendering of one concat item pushes its raw tree. -/
def ItemOK (u : Tree) : Prop := ∀ alts parts rest,
  runLoop alts parts (renderConcatItem u ++ rest) = runLoop alts (parts ++ [rawItem u]) rest

/-- Re-reading the rendering of a kleene child pushes its raw tree. -/
def KChildOK (u : Tree) : Prop := ∀ alts parts rest,
  runLoop alts parts (renderKleeneChild u ++ rest) = runLoop alts (parts ++ [rawKleene u]) rest

/-- Re-reading the in-line rendering of a non-alternate tree appends
its raw parts. -/
def PartsOK (u : Tree) : Prop := ∀ alts parts rest,
  runLoop alts parts (render u ++ rest) = runLoop alts (parts ++ rawParts u) rest

theorem partsListOK : ∀ us : List Tree, (∀ u ∈ us, ItemOK u) →
    ∀ alts parts rest, runLoop alts parts (renderConcat us ++ rest)
      = runLoop alts (parts ++ rawPartsList us) rest := by
  intro us
  induction us with
  | nil =>
    intro _ alts parts rest
    show runLoop alts parts ([] ++ rest) = runLoop alts (parts ++ []) rest
    rw [List.nil_append, List.append_nil]
  | cons u us ih =>
    intro h alts parts rest
    show runLoop alts parts ((renderConcatItem u ++ renderConcat us) ++ rest) = _
    rw [List.append_assoc]
    rw [h u (List.mem_cons_self _ _) alts parts (renderConcat us ++ rest)]
    rw [ih (fun v hv => h v (List.mem_cons_of_mem _ hv)) alts (parts ++ [rawItem u]) rest]
    rw [List.append_assoc]
    rfl

theorem seqOK : ∀ (cs : List Tree) (c : Tree), (∀ x ∈ c :: cs, PartsOK x) →
    ∀ alts parts rest, runLoop alts parts (renderAlts (c :: cs) ++ rest)
      = runLoop (alts ++ (rawSeq parts (c :: cs)).1) (rawSeq parts (c :: cs)).2 rest := by
  intro cs
  induction cs with
  | nil =>
    intro c h alts parts rest
    have e1 : (rawSeq parts [c]).1 = [] := rfl
    have e2 : (rawSeq parts [c]).2 = parts ++ rawParts c := rfl
    rw [e1, e2, List.append_nil]
    show runLoop alts parts (render c ++ rest) = _
    exact h c (List.mem_cons_self _ _) alts parts rest
  | cons c2 cs ih =>
    intro c h alts parts rest
    have e1 : (rawSeq parts (c :: c2 :: cs)).1
        = (parts ++ rawParts c) :: (rawSeq [] (c2 :: cs)).1 := rfl
    have e2 : (rawSeq parts (c :: c2 :: cs)).2 = (rawSeq [] (c2 :: cs)).2 := rfl
    rw [e1, e2]
    show runLoop alts parts ((render c ++ '|' :: renderAlts (c2 :: cs)) ++ rest) = _
    rw [List.append_assoc]
    rw [h c (List.mem_cons_self _ _) alts parts (('|' :: renderAlts (c2 :: cs)) ++ rest)]
    rw [List.cons_append]
    rw [step_pipe alts (parts ++ rawParts c) (renderAlts (c2 :: cs) ++ rest)]
    rw [ih c2 (fun x hx => h x (List.mem_cons_of_mem _ hx))
      (alts ++ [parts ++ rawParts c]) [] rest]
    rw [List.append_assoc]
    rfl

theorem renderOK : ∀ n u, sizeOf u < n → Canon u → SymOk u → NoCaret u →
    (isCat u = false → ItemOK u) ∧ KChildOK u ∧ (isAlt u = false → PartsOK u) := by
  intro n
  induction n with
  | zero => intro u h; omega
  | succ n ih =>
    intro u hsz hC hS hN
    cases u with
    | literal v =>
      have hS' : (∃ c, v = [c]) ∨ v = START ∨ v = END := hS
      have hN' : v ≠ ['^'] ∧ v ≠ ['$'] := hN
      have hlit : ∀ alts parts rest, runLoop alts parts (renderLit v ++ rest)
          = runLoop alts (parts ++ [Tree.literal v]) rest := by
        rcases hS' with ⟨c, rfl⟩ | rfl | rfl
        · obtain ⟨hn1, hn2⟩ := hN'
          have hc1 : c ≠ '^' := fun h => hn1 (by rw [h])
          have hc2 : c ≠ '$' := fun h => hn2 (by rw [h])
          have hvS : ([c] : Sym) ≠ START := by simp [START]
          have hvE : ([c] : Sym) ≠ END := by simp [END]
          intro alts parts rest
          rw [renderLit, if_neg hvS, if_neg hvE]
          by_cases hesc : c ∈ escapeChars
          · rw [if_pos hesc]
            show runLoop alts parts ('\\' :: c :: rest) = _
            exact step_esc c alts parts rest
          · rw [if_neg hesc]
            show runLoop alts parts (c :: rest) = _
            exact step_lit c hesc hc1 hc2 alts parts rest
        · intro alts parts rest
          have hr : renderLit START = ['^'] := by decide
          rw [hr]
          show runLoop alts parts ('^' :: rest) = _
          exact step_caret alts parts rest
        · intro alts parts rest
          have hr : renderLit END = ['$'] := by decide
          rw [hr]
          show runLoop alts parts ('$' :: rest) = _
          exact step_dollar alts parts rest
      exact ⟨fun _ => hlit, hlit, fun _ => hlit⟩
    | kleene c =>
      obtain ⟨hCc, hkc, hne⟩ := hC
      have hSc : SymOk c := hS
      have hNc : NoCaret c := hN
      have hszc : sizeOf c < n := by
        have h1 : sizeOf (Tree.kleene c) = 1 + sizeOf c := rfl
        omega
      obtain ⟨-, hKc, -⟩ := ih c hszc hCc hSc hNc
      have hKc' : ∀ alts parts rest, runLoop alts parts (renderKleeneChild c ++ rest)
          = runLoop alts (parts ++ [rawKleene c]) rest := hKc
      have hstep : ∀ alts parts rest,
          runLoop alts parts ((renderKleeneChild c ++ ['*']) ++ rest)
            = runLoop alts (parts ++ [Tree.kleene (rawKleene c)]) rest := by
        intro alts parts rest
        rw [List.append_assoc]
        rw [hKc' alts parts (['*'] ++ rest)]
        rw [List.singleton_append]
        exact step_star (rawKleene c) alts parts rest
      exact ⟨fun _ => hstep, hstep, fun _ => hstep⟩
    | alternate cs =>
      obtain ⟨hcl, hna, hlen, hnd, hke⟩ := hC
      have hmem : ∀ x ∈ cs, PartsOK x := by
        intro x hx
        have hszx : sizeOf x < n := by
          have h2 := Tree.sizeOf_lt_of_mem hx
          simp at hsz
          omega
        exact (ih x hszx ((canonList_iff cs).mp hcl x hx)
          ((symOkList_iff cs).mp hS x hx)
          ((noCaretList_iff cs).mp hN x hx)).2.2 (hna x hx)
      obtain ⟨c0, cs', rfl⟩ : ∃ c0 cs', cs = c0 :: cs' := by
        cases cs with
        | nil => simp at hlen
        | cons a b => exact ⟨a, b, rfl⟩
      have hgrp : ∀ tail, runLoop [] [] (renderAlts (c0 :: cs') ++ ')' :: tail)
          = .ok (.alternate (rawAltList (c0 :: cs')), ')' :: tail) := by
        intro tail
        rw [seqOK cs' c0 hmem [] [] (')' :: tail)]
        rw [step_close]
        rw [List.nil_append]
        rw [finishTree]
        rw [rawSeq_alt cs' c0]
      have hitem : ∀ alts parts rest,
          runLoop alts parts (('(' :: renderAlts (c0 :: cs') ++ [')']) ++ rest)
            = runLoop alts (parts ++ [Tree.alternate (rawAltList (c0 :: cs'))]) rest := by
        intro alts parts rest
        have e : ('(' :: renderAlts (c0 :: cs') ++ [')']) ++ rest
            = '(' :: (renderAlts (c0 :: cs') ++ ')' :: rest) := by simp
        rw [e]
        exact step_group _ _ _ (hgrp rest) alts parts
      exact ⟨fun _ => hitem, hitem,
        fun hAlt => absurd hAlt (by simp [isAlt])⟩
    | concat cs =>
      obtain ⟨hcl, hnc, hlen⟩ := hC
      have hmem : ∀ x ∈ cs, ItemOK x := by
        intro x hx
        have hszx : sizeOf x < n := by
          have h2 := Tree.sizeOf_lt_of_mem hx
          simp at hsz
          omega
        exact (ih x hszx ((canonList_iff cs).mp hcl x hx)
          ((symOkList_iff cs).mp hS x hx)
          ((noCaretList_iff cs).mp hN x hx)).1 (hnc x hx)
      have hpl := partsListOK cs hmem
      have hparts : ∀ alts parts rest, runLoop alts parts (renderConcat cs ++ rest)
          = runLoop alts (parts ++ rawPartsList cs) rest := hpl
      have hkch : ∀ alts parts rest,
          runLoop alts parts (('(' :: renderConcat cs ++ [')']) ++ rest)
            = runLoop alts (parts ++ [Tree.alternate [Tree.concat (rawPartsList cs)]]) rest := by
        intro alts parts rest
        have e : ('(' :: renderConcat cs ++ [')']) ++ rest
            = '(' :: (renderConcat cs ++ ')' :: rest) := by simp
        rw [e]
        have hg : runLoop [] [] (renderConcat cs ++ ')' :: rest)
            = .ok (.alternate [.concat (rawPartsList cs)], ')' :: rest) := by
          rw [hpl [] [] (')' :: rest)]
          rw [List.nil_append]
          rw [step_close]
          rfl
        exact step_group _ _ _ hg alts parts
      exact ⟨fun hc => absurd hc (by simp [isCat]), hkch, fun _ => hparts⟩

theorem render_top_nonalt (t : Tree) (hp : ∀ alts parts rest,
    runLoop alts parts (render t ++ rest) = runLoop alts (parts ++ rawParts t) rest) :
    runLoop [] [] (render t) = .ok (.alternate [.concat (rawParts t)], []) := by
  rw [← List.append_nil (render t)]
  rw [hp [] [] []]
  rw [step_nil]
  rfl

theorem render_top (t : Tree) (hC : Canon t) (hS : SymOk t) (hN : NoCaret t) :
    runLoop [] [] (render t) = .ok (rawTop t, []) := by
  cases t with
  | alternate cs =>
    obtain ⟨hcl, hna, hlen, hnd, hke⟩ := hC
    have hmem : ∀ x ∈ cs, PartsOK x := fun x hx =>
      (renderOK (sizeOf x + 1) x (Nat.lt_succ_self _)
        ((canonList_iff cs).mp hcl x hx) ((symOkList_iff cs).mp hS x hx)
        ((noCaretList_iff cs).mp hN x hx)).2.2 (hna x hx)
    obtain ⟨c0, cs', rfl⟩ : ∃ c0 cs', cs = c0 :: cs' := by
      cases cs with
      | nil => simp at hlen
      | cons a b => exact ⟨a, b, rfl⟩
    show runLoop [] [] (renderAlts (c0 :: cs')) = _
    rw [← List.append_nil (renderAlts (c0 :: cs'))]
    rw [seqOK cs' c0 hmem [] [] []]
    rw [step_nil]
    rw [List.nil_append, finishTree, rawSeq_alt cs' c0]
    rfl
  | concat cs =>
    exact render_top_nonalt _
      ((renderOK (sizeOf (Tree.concat cs) + 1) _ (Nat.lt_succ_self _) hC hS hN).2.2 rfl)
  | kleene c =>
    exact render_top_nonalt _
      ((renderOK (sizeOf (Tree.kleene c) + 1) _ (Nat.lt_succ_self _) hC hS hN).2.2 rfl)
  | literal v =>
    exact render_top_nonalt _
      ((renderOK (sizeOf (Tree.literal v) + 1) _ (Nat.lt_succ_self _) hC hS hN).2.2 rfl)

/-! ## `_simplify` collapses the re-parsed raw tree back -/

theorem simpAltPost_singleton (x : Tree) : simpAltPost [x] = x := by
  rw [simpAltPost, if_neg (by simp)]
  have hd : dedupAcc ([x].any isKleene) [] [x] = [x] := by
    have := dedupAcc_eq_self ([x].any isKleene) [x] [] (by simp) ?_
    · simpa using this
    · intro hK hmem
      have hx : Tree.concat [] = x := by simpa using hmem
      rw [← hx] at hK
      simp [isKleene] at hK
  rw [hd]

theorem simplifyList_rawPartsList : ∀ us : List Tree,
    (∀ u ∈ us, simplify (rawItem u) = u) → simplifyList (rawPartsList us) = us := by
  intro us
  induction us with
  | nil => intro _; rfl
  | cons u us ih =>
    intro h
    show simplify (rawItem u) :: simplifyList (rawPartsList us) = u :: us
    rw [h u (List.mem_cons_self _ _), ih (fun v hv => h v (List.mem_cons_of_mem _ hv))]

theorem simplifyList_rawAltList : ∀ cs : List Tree,
    (∀ c ∈ cs, simplify (Tree.concat (rawParts c)) = c) →
    simplifyList (rawAltList cs) = cs := by
  intro cs
  induction cs with
  | nil => intro _; rfl
  | cons c cs ih =>
    intro h
    show simplify (Tree.concat (rawParts c)) :: simplifyList (rawAltList cs) = c :: cs
    rw [h c (List.mem_cons_self _ _), ih (fun v hv => h v (List.mem_cons_of_mem _ hv))]

theorem simplify_raw : ∀ n u, sizeOf u < n → Canon u →
    simplify (rawItem u) = u ∧ simplify (rawKleene u) = u ∧
    (isAlt u = false → simplify (Tree.concat (rawParts u)) = u) := by
  intro n
  induction n with
  | zero => intro u h; omega
  | succ n ih =>
    intro u hsz hC
    cases u with
    | literal v => exact ⟨rfl, rfl, fun _ => rfl⟩
    | kleene c =>
      obtain ⟨hCc, hkc, hne⟩ := hC
      have hszc : sizeOf c < n := by
        have h1 : sizeOf (Tree.kleene c) = 1 + sizeOf c := rfl
        omega
      obtain ⟨-, hKc, -⟩ := ih c hszc hCc
      have hab : simplify (Tree.kleene (rawKleene c)) = Tree.kleene c := by
        show simpKlePost (simplify (rawKleene c)) = _
        rw [hKc, simpKlePost_eq c hkc hne]
      refine ⟨hab, hab, fun _ => ?_⟩
      show simpCatPost (spliceConcats (simplifyList [Tree.kleene (rawKleene c)])) = _
      have h1 : simplifyList [Tree.kleene (rawKleene c)] = [Tree.kleene c] := by
        show simplify (Tree.kleene (rawKleene c)) :: simplifyList [] = _
        rw [hab]
        rfl
      rw [h1]
      rfl
    | alternate cs =>
      obtain ⟨hcl, hna, hlen, hnd, hke⟩ := hC
      have hmem : ∀ x ∈ cs, simplify (Tree.concat (rawParts x)) = x := by
        intro x hx
        have hszx : sizeOf x < n := by
          have h2 := Tree.sizeOf_lt_of_mem hx
          simp at hsz
          omega
        exact (ih x hszx ((canonList_iff cs).mp hcl x hx)).2.2 (hna x hx)
      have hab : simplify (Tree.alternate (rawAltList cs)) = Tree.alternate cs := by
        show simpAltPost (spliceAlts (simplifyList (rawAltList cs))) = _
        rw [simplifyList_rawAltList cs hmem]
        rw [spliceAlts_eq_self cs hna]
        rw [simpAltPost_eq cs hlen hnd hke]
      exact ⟨hab, hab, fun hAlt => absurd hAlt (by simp [isAlt])⟩
    | concat cs =>
      obtain ⟨hcl, hnc, hlen⟩ := hC
      have hmem : ∀ x ∈ cs, simplify (rawItem x) = x := by
        intro x hx
        have hszx : sizeOf x < n := by
          have h2 := Tree.sizeOf_lt_of_mem hx
          simp at hsz
          omega
        exact (ih x hszx ((canonList_iff cs).mp hcl x hx)).1
      have ha : simplify (Tree.concat (rawPartsList cs)) = Tree.concat cs := by
        show simpCatPost (spliceConcats (simplifyList (rawPartsList cs))) = _
        rw [simplifyList_rawPartsList cs hmem]
        rw [spliceConcats_eq_self cs hnc]
        rw [simpCatPost_eq cs hlen]
      have hb : simplify (Tree.alternate [Tree.concat (rawPartsList cs)]) = Tree.concat cs := by
        show simpAltPost (spliceAlts (simplifyList [Tree.concat (rawPartsList cs)])) = _
        have h1 : simplifyList [Tree.concat (rawPartsList cs)] = [Tree.concat cs] := by
          show simplify (Tree.concat (rawPartsList cs)) :: simplifyList [] = _
          rw [ha]
          rfl
        rw [h1]
        show simpAltPost [Tree.concat cs] = _
        exact simpAltPost_singleton _
      exact ⟨ha, hb, fun _ => ha⟩

theorem simplify_rawTop (t : Tree) (hC : Canon t) : simplify (rawTop t) = t := by
  cases t with
  | alternate cs =>
    exact (simplify_raw (sizeOf (Tree.alternate cs) + 1) _ (Nat.lt_succ_self _) hC).1
  | concat cs =>
    exact (simplify_raw (sizeOf (Tree.concat cs) + 1) _ (Nat.lt_succ_self _) hC).2.1
  | kleene c =>
    have hc : simplify (Tree.concat [Tree.kleene (rawKleene c)]) = Tree.kleene c :=
      (simplify_raw (sizeOf (Tree.kleene c) + 1) _ (Nat.lt_succ_self _) hC).2.2 rfl
    show simpAltPost (spliceAlts (simplifyList [Tree.concat [Tree.kleene (rawKleene c)]])) = _
    have h1 : simplifyList [Tree.concat [Tree.kleene (rawKleene c)]] = [Tree.kleene c] := by
      show simplify (Tree.concat [Tree.kleene (rawKleene c)]) :: simplifyList [] = _
      rw [hc]
      rfl
    rw [h1]
    show simpAltPost [Tree.kleene c] = _
    exact simpAltPost_singleton _
  | literal v =>
    have hc : simplify (Tree.concat [Tree.literal v]) = Tree.literal v :=
      (simplify_raw (sizeOf (Tree.literal v) + 1) _ (Nat.lt_succ_self _) hC).2.2 rfl
    show simpAltPost (spliceAlts (simplifyList [Tree.concat [Tree.literal v]])) = _
    have h1 : simplifyList [Tree.concat [Tree.literal v]] = [Tree.literal v] := by
      show simplify (Tree.concat [Tree.literal v]) :: simplifyList [] = _
      rw [hc]
      rfl
    rw [h1]
    show simpAltPost [Tree.literal v] = _
    exact simpAltPost_singleton _

theorem parse_render (t : Tree) (hC : Canon t) (hS : SymOk t) (hN : NoCaret t) :
    parseTop (render t) = .ok t := by
  have h0' : parseLoop ((render t).length + 1) [] [] (render t) = .ok (rawTop t, []) :=
    render_top t hC hS hN
  have hmid : parseTop (render t) = .ok (simplify (rawTop t)) := by
    rw [parseTop, h0']
  rw [hmid, simplify_rawTop t hC]

/-! ## Concrete claims about parsing and bounded repetition -/

/-- C4: `parse` raises `ParseError` on each of the listed malformed
patterns — `"("` (unterminated group), `"a)"` (close parenthesis without
matching open), `"*"` (repeat operator with no preceding value), `"[a-"`
(unterminated character class), `"a{3,1}"` (repeat maximum below
minimum) — while `"a**"` parses successfully: a repeat operator may be
applied to a `Kleene` node, yielding `Kleene (Literal 'a')`. -/
theorem C4_parse_errors :
    parse "(" = .error (.parseError "Unterminated group") ∧
    parse "a)" = .error (.parseError "Close parenthesis without matching open parenthesis") ∧
    parse "*" = .error (.parseError "Unary operator must follow a value") ∧
    parse "[a-" = .error (.parseError "Unterminated character set") ∧
    parse "a{3,1}" = .error (.parseError "Repeat operator maximum must be >= minimum") ∧
    parse "a**" = .ok (.kleene (.literal ['a'])) := by
  decide

/-- C5: the bounded repeat `{m,n}` matches between `m` and `n` repeats
of the preceding unit against the entire input:
`match("a{2,3}", "a")` is false, `match("a{2,3}", "aa")` is true, and
`match("a{2,3}", "aaaa")` is false. -/
theorem C5_bounded_repeat :
    matchRe "a{2,3}" "a" = .ok (some false) ∧
    matchRe "a{2,3}" "aa" = .ok (some true) ∧
    matchRe "a{2,3}" "aaaa" = .ok (some false) := by
  decide

/-- The DFA walk for the pattern `"^a$"` rejects every input: on empty
input the start subset `{0}` misses the accepting set `{3}`, and no
single input character can equal the five-character sentinel `START`,
so the first step always finds no transition. -/
theorem c3_walk_false : ∀ l : List Char,
    matchWalk [(0, START, 1), (1, ['a'], 2), (2, END, 3)]
      [{0}, {1}, {2}, {3}] {3} {0} l = some false := by
  intro l
  cases l with
  | nil => decide
  | cons c rest =>
    have hne : START = [c] ↔ False := by simp [START]
    simp [matchWalk, tmOf, dests, hne, Finset.filter_eq_empty_iff]

/-- C3: an unescaped `^` or `$` parses to the pseudo-token literals
`START` / `END`, which the compiler and matcher treat as ordinary
symbols; since input is consumed one character at a time and no single
character equals the five-character sentinel `START` (or three-character
`END`), such a position can never be matched — in particular
`match("^a$", s)` is false for every input string `s`. -/
theorem C3_anchors_never_match :
    parse "^a$" = .ok (.concat [.literal START, .literal ['a'], .literal END]) ∧
    ∀ s : String, matchRe "^a$" s = .ok (some false) := by
  refine ⟨by decide, fun s => ?_⟩
  have h : matchRe "^a$" s = .ok
      (matchWalk [(0, START, 1), (1, ['a'], 2), (2, END, 3)]
        [{0}, {1}, {2}, {3}] {3} {0} s.toList) := rfl
  rw [h, c3_walk_false]

/-- C2 as stated is refuted by the one-character literal `'^'`: the
pattern `\^` parses to `Literal '^'`, but `to_text` does not escape `^`
(its escape list stops at `'+*?{.[()|\'`), so the re-parsed text `^`
yields the `START` pseudo-token literal instead of the original
tree. -/
theorem C2_counterexample :
    parse "\\^" = .ok (.literal ['^']) ∧
    to_text (.literal ['^']) = "^" ∧
    parse (to_text (.literal ['^'])) = .ok (.literal START) ∧
    (Tree.literal START : Tree) ≠ .literal ['^'] := by decide

/-- C2 (amended): for every syntax tree `t` returned by `parse` in
which no literal holds the one-character value `'^'` or `'$'`,
`parse (to_text t)` is structurally equal to `t` (equality of the
rendered pattern text with the original pattern is not required). -/
theorem C2_roundtrip (p : String) (t : Tree) (hp : parse p = .ok t) (hN : NoCaret t) :
    parse (to_text t) = .ok t := by
  have hC := parse_canon p t hp
  have hS := parse_symOk p t hp
  show parseTop (to_text t).toList = .ok t
  have he : (to_text t).toList = render t := rfl
  rw [he]
  exact parse_render t hC hS hN

/-- The round trip at the concrete pattern `ab|c*`, whose parse tree
holds no `'^'` or `'$'` literal. -/
theorem C2_roundtrip_witness :
    parse (to_text (Tree.alternate [Tree.concat [Tree.literal ['a'], Tree.literal ['b']],
        Tree.kleene (Tree.literal ['c'])])) =
      .ok (Tree.alternate [Tree.concat [Tree.literal ['a'], Tree.literal ['b']],
        Tree.kleene (Tree.literal ['c'])]) :=
  C2_roundtrip "ab|c*"
    (Tree.alternate [Tree.concat [Tree.literal ['a'], Tree.literal ['b']],
      Tree.kleene (Tree.literal ['c'])])
    (by decide)
    ⟨⟨⟨by decide, by decide⟩, ⟨by decide, by decide⟩, trivial⟩,
      ⟨by decide, by decide⟩, trivial⟩

end DfaRegex
